import Mathlib

/-!
# A verification development for the `shorter` URL shortener

Shallow embedding of the Go backend (`backend/utils/shortener.go`,
`backend/middleware/ratelimit.go`, `backend/config/database.go`,
`backend/handlers/url.go`) and theorems about it.

Conventions of the embedding.

* A Go `string` is a Lean `String`; only Go strings that are valid UTF-8 are
  represented.  `len(s)` is the byte length `String.utf8ByteSize`, and a
  `range` loop over a string visits `String.data`.
* `uint32` values are natural numbers, reduced modulo `2 ^ 32` wherever the Go
  operation can wrap.
* The Go types `int` and `int64` (token counts, burst, `time.Duration` in
  nanoseconds) are integers of the 64-bit range: every addition, subtraction
  and quotient of the limiter is reduced by `wrapInt64`, the two's-complement
  wrap-around of Go's `int` on a 64-bit platform.  Integer division is Go's,
  truncating towards zero, and a division by zero is a panic.
* A `time.Time` is an integer counting nanoseconds, without bound; the
  difference `t.Sub(u)` is a `time.Duration` and saturates at the bounds of
  the 64-bit range, as in package `time`.
* The database behind `config.DB` answers every query; the Redis server behind
  `config.RDB` may fail to answer, which each cache call receives as a flag.
* Functions of libraries outside the repository that the handlers rely on
  (`url.Parse`, the rule `url` of the request validator) are parameters.
* A goroutine started by a handler is returned as the arguments it was started
  with, to be run on whatever state it finds; the cleanup goroutine of a
  limiter is the function `cleanup`, run between calls at any time.
* Global variables (`config.DB`, `config.RDB`, the client map of a limiter) are
  passed in and returned explicitly.
-/

namespace Shorter

/-! ## Package `utils`: `shortener.go` -/

/-- The constant `base62Chars`. -/
def base62Chars : String :=
  "0123456789ABCDEFGHIJKLMNOPQRSTUVWXYZabcdefghijklmnopqrstuvwxyz"

/-- The constant `shortCodeLength`. -/
def shortCodeLength : Nat := 6

/-- The Go expression `s[i]` for an index inside an ASCII string (the only use
in this file is `base62Chars[i]` with `i < 62`). -/
def byteAt (s : String) (i : Nat) : Char := s.data.getD i '0'

/-- The random source read by `rand.Int(rand.Reader, big.NewInt(62))`: the
`i`-th draw is a number in `0 .. 61`. -/
abbrev RandSource := Nat → Fin 62

/-- The source with its first `k` draws consumed. -/
def RandSource.drop (rnd : RandSource) (k : Nat) : RandSource := fun i => rnd (i + k)

/-- Go `GenerateShortCode`: `result[i] = base62Chars[num]` for each of the
`shortCodeLength` positions, `num` being the next draw. -/
def GenerateShortCode (rnd : RandSource) : String :=
  String.mk ((List.range shortCodeLength).map fun i => byteAt base62Chars (rnd i).val)

/-- The loop `for num > 0 { result = string(base62Chars[num%base]) + result;
num = num / base }` of `EncodeBase62`.  The first argument bounds the number of
iterations; `num` itself is always enough, since `num / 62 < num`. -/
def encodeLoop : Nat → Nat → String → String
  | 0, _, result => result
  | fuel + 1, num, result =>
    if num > 0 then
      encodeLoop fuel (num / 62) (String.singleton (byteAt base62Chars (num % 62)) ++ result)
    else result

/-- Go `EncodeBase62(num uint32)`. -/
def EncodeBase62 (num : Nat) : String :=
  if num = 0 then String.singleton (byteAt base62Chars 0)
  else encodeLoop num num ""

/-- Go `strings.IndexRune(s, r)`: index of the first occurrence of `r`, or `-1`.
(For the ASCII string `base62Chars` byte index and character index agree.) -/
def IndexRune (s : String) (r : Char) : Int :=
  match s.data.indexOf? r with
  | some i => (i : Int)
  | none => -1

/-- Conversion `uint32(i)` of a Go `int`. -/
def toUint32 (i : Int) : Nat := (i % (2 ^ 32 : Int)).toNat

/-- The body `result = result*base + uint32(strings.IndexRune(base62Chars, char))`
of the loop of `DecodeBase62`, in `uint32` arithmetic. -/
def decodeStep (result : Nat) (char : Char) : Nat :=
  (result * 62 + toUint32 (IndexRune base62Chars char)) % 2 ^ 32

/-- Go `DecodeBase62`: one `decodeStep` for every character of the string. -/
def DecodeBase62 (str : String) : Nat :=
  str.data.foldl decodeStep 0

/-- The result of `url.Parse` that `IsValidURL` looks at. -/
structure ParsedURL where
  Scheme : String
  Host : String
deriving DecidableEq

/-- The standard-library function `url.Parse`, not part of the repository:
`none` stands for a non-nil error. -/
abbrev URLParser := String → Option ParsedURL

/-- Go `IsValidURL`. -/
def IsValidURL (parse : URLParser) (rawURL : String) : Bool :=
  match parse rawURL with
  | none => false
  | some parsedURL => parsedURL.Scheme != "" && parsedURL.Host != ""

/-- Go `strings.HasPrefix`. -/
def HasPrefix (s pre : String) : Bool := pre.data.isPrefixOf s.data

/-- Go `NormalizeURL`. -/
def NormalizeURL (rawURL : String) : String :=
  if !HasPrefix rawURL "http://" && !HasPrefix rawURL "https://" then
    "http://" ++ rawURL
  else rawURL

/-- Membership in the character class `[a-zA-Z0-9-]`. -/
def inCustomCodeClass (c : Char) : Bool :=
  ('a' ≤ c && c ≤ 'z') || ('A' ≤ c && c ≤ 'Z') || ('0' ≤ c && c ≤ '9') || c == '-'

/-- Go `regexp.MatchString("^[a-zA-Z0-9-]+$", code)`.  Without the `m` flag Go's `^`
and `$` match only at the beginning and at the end of the text, so the pattern
matches exactly the non-empty strings all of whose characters are in the
class. -/
def matchCustomCodePattern (code : String) : Bool :=
  !code.data.isEmpty && code.data.all inCustomCodeClass

/-- Go `IsValidCustomCode`. -/
def IsValidCustomCode (code : String) : Bool :=
  if code.utf8ByteSize < 3 || code.utf8ByteSize > 20 then false
  else matchCustomCodePattern code

/-! ## Go integers and durations -/

/-- The integer is a value of Go's `int`, `int64` and `time.Duration` on a 64-bit
platform: between `math.MinInt64` and `math.MaxInt64`. -/
def IsInt64 (x : Int) : Prop := -9223372036854775808 ≤ x ∧ x ≤ 9223372036854775807

/-- The value Go's `int` arithmetic gives for the exact result `x`: `x` reduced
modulo `2 ^ 64` into the range of `int` (two's-complement wrap-around). -/
def wrapInt64 (x : Int) : Int :=
  (x + 9223372036854775808) % 18446744073709551616 - 9223372036854775808

/-- Go `t.Sub(u)` of `time.Time`: the difference as a `time.Duration`, which is
the largest or the smallest duration when the difference does not fit. -/
def durationSub (t u : Int) : Int :=
  if t - u > 9223372036854775807 then 9223372036854775807
  else if t - u < -9223372036854775808 then -9223372036854775808
  else t - u

/-! ## Package `middleware`: `ratelimit.go` -/

/-- Go `ClientLimiter`: the bucket of one client. -/
structure ClientLimiter where
  tokens : Int
  lastSeen : Int
deriving DecidableEq

/-- Go `RateLimiter` (the mutex is not represented: calls are atomic steps).
`clients` is the Go map, `none` meaning "key absent"; `rate` is a
`time.Duration` and `burst` an `int`, both 64-bit values. -/
structure RateLimiter where
  clients : String → Option ClientLimiter
  rate : Int
  burst : Int
  rate_int64 : IsInt64 rate
  burst_int64 : IsInt64 burst

/-- The map update `rl.clients[clientIP] = client`. -/
def RateLimiter.put (rl : RateLimiter) (clientIP : String) (client : ClientLimiter) :
    RateLimiter :=
  { rl with clients := fun k => if k = clientIP then some client else rl.clients k }

/-- Go `NewRateLimiter`; the goroutine it starts is the step `cleanup` below.  The
two arguments are read as 64-bit values. -/
def NewRateLimiter (rate : Int) (burst : Int) : RateLimiter :=
  { clients := fun _ => none, rate := wrapInt64 rate, burst := wrapInt64 burst,
    rate_int64 := by unfold IsInt64 wrapInt64; omega,
    burst_int64 := by unfold IsInt64 wrapInt64; omega }

/-- Go `RateLimiter.Allow`, called at time `now`.  The result is the limiter after
the call and the returned boolean; `none` is the run-time panic of the integer
division `elapsed / rl.rate` when `rl.rate` is zero, which happens before any
change to the state.  Every `int` operation wraps as in Go. -/
def Allow (rl : RateLimiter) (clientIP : String) (now : Int) : Option (RateLimiter × Bool) :=
  match rl.clients clientIP with
  | none =>
    some (rl.put clientIP { tokens := wrapInt64 (rl.burst - 1), lastSeen := now }, true)
  | some client =>
    if rl.rate = 0 then none
    else
      let elapsed := durationSub now client.lastSeen
      let tokensToAdd := wrapInt64 (Int.tdiv elapsed rl.rate)
      let client :=
        if tokensToAdd > 0 then
          { tokens := if wrapInt64 (client.tokens + tokensToAdd) > rl.burst then rl.burst
                      else wrapInt64 (client.tokens + tokensToAdd),
            lastSeen := now }
        else client
      if client.tokens > 0 then
        some (rl.put clientIP { client with tokens := wrapInt64 (client.tokens - 1) }, true)
      else
        some (rl.put clientIP client, false)

/-- Go `time.Hour` in nanoseconds. -/
def hour : Int := 3600000000000

/-- One pass of the loop body of `cleanupRoutine`, run at time `now`: every
client with `now.Sub(client.lastSeen) > time.Hour` is deleted. -/
def cleanup (rl : RateLimiter) (now : Int) : RateLimiter :=
  { rl with clients := fun ip =>
      match rl.clients ip with
      | none => none
      | some client => if durationSub now client.lastSeen > hour then none else some client }

/-! ## Package `models` and the persistent store -/

/-- Go `models.URL`, a row of table `urls`.  `Deleted` says that `DeletedAt` is set
(a soft-deleted row); timestamps are not represented. -/
structure URL where
  ID : Nat
  OriginalURL : String
  ShortCode : String
  Title : String
  Deleted : Bool
deriving DecidableEq

/-- Go `models.Click`, a row of table `clicks`. -/
structure Click where
  ID : Nat
  URLId : Nat
  IPAddress : String
  UserAgent : String
  Referer : String
  Country : String
  City : String
  Deleted : Bool
deriving DecidableEq

/-- Go `models.CreateURLRequest`: the fields that `ShouldBindJSON` has decoded from
the JSON body, before the binding rules are checked. -/
structure CreateURLRequest where
  URL : String
  CustomCode : String
deriving DecidableEq

/-- Go `models.URLResponse` (without `CreatedAt`). -/
structure URLResponse where
  ID : Nat
  OriginalURL : String
  ShortCode : String
  ShortURL : String
  Title : String
  ClickCount : Nat
deriving DecidableEq

/-- The state behind `config.DB`: both tables in primary-key order and the next
value of each id sequence. -/
structure Database where
  urls : List URL
  clicks : List Click
  nextURLID : Nat
  nextClickID : Nat
deriving DecidableEq

/-- Go `DB.Where("original_url = ?", x).First(&u)`: the first row, by primary key,
that is not soft-deleted and has that original URL; `none` is
`ErrRecordNotFound`. -/
def firstByOriginalURL (db : Database) (originalURL : String) : Option URL :=
  db.urls.find? fun u => !u.Deleted && u.OriginalURL == originalURL

/-- Go `DB.Where("short_code = ?", x).First(&u)`. -/
def firstByShortCode (db : Database) (shortCode : String) : Option URL :=
  db.urls.find? fun u => !u.Deleted && u.ShortCode == shortCode

/-- Go `DB.Model(&models.Click{}).Where("url_id = ?", id).Count(&n)`. -/
def countClicks (db : Database) (urlID : Nat) : Nat :=
  db.clicks.countP fun c => !c.Deleted && c.URLId == urlID

/-- Go `DB.Create(&newURL)`: the insert is refused (`none`) when the unique index on
`short_code` already holds the code, in a live or a soft-deleted row; otherwise
the row gets the next id. -/
def createURL (db : Database) (originalURL shortCode title : String) :
    Option (Database × URL) :=
  if db.urls.any (fun u => u.ShortCode == shortCode) then none
  else
    let newURL : URL :=
      { ID := db.nextURLID, OriginalURL := originalURL, ShortCode := shortCode,
        Title := title, Deleted := false }
    some ({ db with urls := db.urls ++ [newURL], nextURLID := db.nextURLID + 1 }, newURL)

/-! ## Package `config`: the cache functions of `database.go` -/

/-- A key of the Redis server: its value and the expiration it was written
with. -/
structure CacheEntry where
  value : String
  expiration : Nat
deriving DecidableEq

/-- The contents of the Redis server behind a non-nil `config.RDB`. -/
structure Redis where
  data : String → Option CacheEntry

/-- The error values the cache functions return besides `nil`. -/
inductive CacheError where
  | Nil
  | Failed
deriving DecidableEq

/-- Go `CacheSet`.  `RDB = none` is the nil handle; `up` says whether the server
answers this command.  Returns the cache afterwards and the error (`none` is
`nil`). -/
def CacheSet (RDB : Option Redis) (up : Bool) (key value : String) (expiration : Nat) :
    Option Redis × Option CacheError :=
  match RDB with
  | none => (none, none)
  | some r =>
    if up then
      (some { data := fun k =>
          if k = key then some { value := value, expiration := expiration } else r.data k },
        none)
    else (some r, some CacheError.Failed)

/-- Go `CacheGet`: the value and the error; `redis.Nil` is `CacheError.Nil`. -/
def CacheGet (RDB : Option Redis) (up : Bool) (key : String) : String × Option CacheError :=
  match RDB with
  | none => ("", some CacheError.Nil)
  | some r =>
    if up then
      match r.data key with
      | some e => (e.value, none)
      | none => ("", some CacheError.Nil)
    else ("", some CacheError.Failed)

/-- Go `CacheDelete`. -/
def CacheDelete (RDB : Option Redis) (up : Bool) (key : String) :
    Option Redis × Option CacheError :=
  match RDB with
  | none => (none, none)
  | some r =>
    if up then (some { data := fun k => if k = key then none else r.data k }, none)
    else (some r, some CacheError.Failed)

/-! ## Package `handlers`: `url.go` -/

/-- What a handler writes to the client. -/
inductive Reply where
  | json (status : Nat) (body : URLResponse)
  | error (status : Nat) (message : String)
  | redirect (status : Nat) (location : String)
deriving DecidableEq

/-- The parts of `*http.Request` that `trackClick` reads: the result of
`utils.GetClientIP`, `r.UserAgent()` and `r.Referer()`. -/
structure Request where
  ClientIP : String
  UserAgent : String
  Referer : String
deriving DecidableEq

/-- Go `24*time.Hour` in nanoseconds. -/
def day : Nat := 86400000000000

/-- Go `GetTitleFromURL`: both return statements give the empty string. -/
def GetTitleFromURL (_rawURL : String) : String := ""

/-- The loop `for { shortCode = GenerateShortCode(); if <not in DB> { break } }`
of `ShortenURL`, bounded by `fuel` iterations; `none` when the bound is
reached. -/
def generateUnusedCode (db : Database) : Nat → RandSource → Option String
  | 0, _ => none
  | fuel + 1, rnd =>
    match firstByShortCode db (GenerateShortCode rnd) with
    | none => some (GenerateShortCode rnd)
    | some _ => generateUnusedCode db fuel (rnd.drop shortCodeLength)

/-- The rule `url` that the validator behind `ShouldBindJSON` applies to a
field tagged `binding:"url"`; the validator is not part of the repository. -/
abbrev URLRule := String → Bool

/-- Go `c.ShouldBindJSON(&req)` on a body that decodes into `req`: the binding
rules `required,url` of field `URL` (field `CustomCode` has none).  The result
`false` stands for a non-nil error; a body that does not decode gets the same
error. -/
def ShouldBindJSON (isURL : URLRule) (req : CreateURLRequest) : Bool :=
  req.URL != "" && isURL req.URL

/-- Go `ShortenURL`.  `req` holds the fields decoded from the request body,
`baseURL` is the value of `getBaseURL(c)`, `redisUp` whether Redis answers the
`CacheSet`.  The result is the reply, the database and the cache afterwards;
`none` when the code generation loop does not end within `fuel` iterations. -/
def ShortenURL (isURL : URLRule) (parse : URLParser) (rnd : RandSource) (fuel : Nat)
    (redisUp : Bool) (baseURL : String) (db : Database) (RDB : Option Redis)
    (req : CreateURLRequest) : Option (Reply × Database × Option Redis) :=
  if !ShouldBindJSON isURL req then
    some (Reply.error 400 "Invalid JSON format", db, RDB)
  else
    let normalizedURL := NormalizeURL req.URL
    if !IsValidURL parse normalizedURL then
      some (Reply.error 400 "Invalid URL format", db, RDB)
    else
      match firstByOriginalURL db normalizedURL with
      | some existingURL =>
        some (Reply.json 200
          { ID := existingURL.ID, OriginalURL := existingURL.OriginalURL,
            ShortCode := existingURL.ShortCode,
            ShortURL := baseURL ++ "/" ++ existingURL.ShortCode,
            Title := existingURL.Title, ClickCount := countClicks db existingURL.ID }, db, RDB)
      | none =>
        let chosen : Option (Except Reply String) :=
          if req.CustomCode ≠ "" then
            if !IsValidCustomCode req.CustomCode then
              some (Except.error (Reply.error 400 "Invalid custom code format"))
            else
              match firstByShortCode db req.CustomCode with
              | some _ => some (Except.error (Reply.error 409 "Custom code already exists"))
              | none => some (Except.ok req.CustomCode)
          else (generateUnusedCode db fuel rnd).map Except.ok
        match chosen with
        | none => none
        | some (Except.error reply) => some (reply, db, RDB)
        | some (Except.ok shortCode) =>
          match createURL db normalizedURL shortCode (GetTitleFromURL normalizedURL) with
          | none => some (Reply.error 500 "Failed to create short URL", db, RDB)
          | some (db1, newURL) =>
            some (Reply.json 201
              { ID := newURL.ID, OriginalURL := newURL.OriginalURL,
                ShortCode := newURL.ShortCode,
                ShortURL := baseURL ++ "/" ++ newURL.ShortCode, Title := newURL.Title,
                ClickCount := 0 }, db1, (CacheSet RDB redisUp shortCode normalizedURL day).1)

/-- Go `trackClick`, run on the database state it finds. -/
def trackClick (urlID : Nat) (r : Request) (db : Database) : Database :=
  if urlID = 0 then db
  else
    { db with
      clicks := db.clicks ++
        [{ ID := db.nextClickID, URLId := urlID, IPAddress := r.ClientIP,
           UserAgent := r.UserAgent, Referer := r.Referer, Country := "", City := "",
           Deleted := false }],
      nextClickID := db.nextClickID + 1 }

/-- The outcome of `RedirectURL`: the reply, the cache afterwards, and the
arguments of the goroutine `go trackClick(urlID, c.Request)` when the handler
reaches that statement. -/
structure RedirectResult where
  reply : Reply
  RDB : Option Redis
  spawned : Option (Nat × Request)

/-- Go `RedirectURL`; `getUp` and `setUp` say whether Redis answers the `CacheGet`
and the `CacheSet`. -/
def RedirectURL (getUp setUp : Bool) (db : Database) (RDB : Option Redis)
    (shortCode : String) (r : Request) : RedirectResult :=
  if shortCode = "" then
    { reply := Reply.error 400 "Short code is required", RDB := RDB, spawned := none }
  else
    let (cachedURL, err) := CacheGet RDB getUp shortCode
    if err = none ∧ cachedURL ≠ "" then
      let urlID :=
        match firstByShortCode db shortCode with
        | some url => url.ID
        | none => 0
      { reply := Reply.redirect 301 cachedURL, RDB := RDB, spawned := some (urlID, r) }
    else
      match firstByShortCode db shortCode with
      | none => { reply := Reply.error 404 "Short URL not found", RDB := RDB, spawned := none }
      | some url =>
        { reply := Reply.redirect 301 url.OriginalURL,
          RDB := (CacheSet RDB setUp shortCode url.OriginalURL day).1,
          spawned := some (url.ID, r) }

/-! ## Notions used in the statements -/

/-- One digit of positional base-62 notation, without wrap-around. -/
def valStep (result : Nat) (char : Char) : Nat :=
  result * 62 + toUint32 (IndexRune base62Chars char)

/-- The number a base-62 string denotes, most significant digit first, computed
without wrap-around. -/
def base62Value (str : String) : Nat :=
  str.data.foldl valStep 0

/-- A digit string with no leading zero symbol. -/
def Canonical (l : List Char) : Prop :=
  (∀ c ∈ l, c ∈ base62Chars.data) ∧ ∃ c t, l = c :: t ∧ c ≠ '0'

/-- Runs `n` consecutive calls `rl.Allow(clientIP)`, all at time `now`: the final
limiter and the list of returned booleans, in call order. -/
def AllowRepeat (rl : RateLimiter) (clientIP : String) (now : Int) :
    Nat → Option (RateLimiter × List Bool)
  | 0 => some (rl, [])
  | n + 1 =>
    match AllowRepeat rl clientIP now n with
    | none => none
    | some (rl1, results) =>
      match Allow rl1 clientIP now with
      | none => none
      | some (rl2, ok) => some (rl2, results ++ [ok])

/-- The booleans returned by a run of calls. -/
def resultsOf (r : Option (RateLimiter × List Bool)) : Option (List Bool) := r.map Prod.snd

/-- The limiter states reachable from `NewRateLimiter rate burst` by `Allow`
calls (any key, any time) and cleanup passes (any time). -/
inductive Reachable (rate burst : Int) : RateLimiter → Prop
  | init : Reachable rate burst (NewRateLimiter rate burst)
  | allow {rl rl1 : RateLimiter} {ok : Bool} (clientIP : String) (now : Int) :
      Reachable rate burst rl → Allow rl clientIP now = some (rl1, ok) →
      Reachable rate burst rl1
  | sweep {rl : RateLimiter} (now : Int) :
      Reachable rate burst rl → Reachable rate burst (cleanup rl now)

/-- The bucket invariant in the form that `Allow` maintains: between two calls a
bucket holds at least 0 and at most `burst - 1` tokens. -/
def TokensInRange (rl : RateLimiter) : Prop :=
  ∀ k client, rl.clients k = some client → 0 ≤ client.tokens ∧ client.tokens ≤ rl.burst - 1

/-- The value of `tokensToAdd` in `Allow`. -/
def tokensToAdd (rl : RateLimiter) (client : ClientLimiter) (now : Int) : Int :=
  wrapInt64 (Int.tdiv (durationSub now client.lastSeen) rl.rate)

/-- The bucket after the refill step of `Allow` and before a token is taken. -/
def refilled (rl : RateLimiter) (client : ClientLimiter) (now : Int) : ClientLimiter :=
  if tokensToAdd rl client now > 0 then
    { tokens := if wrapInt64 (client.tokens + tokensToAdd rl client now) > rl.burst then rl.burst
                else wrapInt64 (client.tokens + tokensToAdd rl client now),
      lastSeen := now }
  else client

/-- What happens to a limiter, as far as one client is concerned: a call of
`Allow` for that client or a pass of the cleanup loop, each at a time. -/
inductive LimiterEvent where
  | call (now : Int)
  | sweep (now : Int)
deriving DecidableEq

/-- The time of an event. -/
def LimiterEvent.time : LimiterEvent → Int
  | LimiterEvent.call now => now
  | LimiterEvent.sweep now => now

/-- The event is a cleanup pass. -/
def LimiterEvent.isSweep : LimiterEvent → Bool
  | LimiterEvent.call _ => false
  | LimiterEvent.sweep _ => true

/-- Runs the events in order, the calls being `rl.Allow(clientIP)`: the final
limiter and the booleans the calls returned. -/
def runEvents (rl : RateLimiter) (clientIP : String) :
    List LimiterEvent → Option (RateLimiter × List Bool)
  | [] => some (rl, [])
  | LimiterEvent.call now :: later =>
    match Allow rl clientIP now with
    | none => none
    | some (rl1, ok) =>
      match runEvents rl1 clientIP later with
      | none => none
      | some (rl2, results) => some (rl2, ok :: results)
  | LimiterEvent.sweep now :: later => runEvents (cleanup rl now) clientIP later

/-- The limiter `NewRateLimiter(6*time.Second, 10)` after one call at time 0. -/
def sampleLimiter : RateLimiter :=
  (NewRateLimiter 6000000000 10).put "203.0.113.7" { tokens := 10 - 1, lastSeen := 0 }

/-- The limiter `NewRateLimiter(6*time.Second, 0)` after one call at time 0. -/
def drainedZero : RateLimiter :=
  (NewRateLimiter 6000000000 0).put "203.0.113.7" { tokens := 0 - 1, lastSeen := 0 }

/-- The limiter `NewRateLimiter(6*time.Second, 10)` after a call at time 0 and a
call 5 s later: the second call adds no token, so `lastSeen` is still 0. -/
def laggingLimiter : RateLimiter :=
  ((NewRateLimiter 6000000000 10).put "203.0.113.7" { tokens := 10 - 1, lastSeen := 0 }).put
    "203.0.113.7" { tokens := 10 - 1 - 1, lastSeen := 0 }

/-- The limiter `NewRateLimiter(2*time.Hour, 2)` after three calls at time 0. -/
def slowDrained : RateLimiter :=
  (((NewRateLimiter 7200000000000 2).put "203.0.113.7" { tokens := 1, lastSeen := 0 }).put
    "203.0.113.7" { tokens := 0, lastSeen := 0 }).put "203.0.113.7" { tokens := 0, lastSeen := 0 }

/-- The limiter `NewRateLimiter(1, math.MaxInt64)`, one token per nanosecond,
after one call at time 0. -/
def fullRangeLimiter : RateLimiter :=
  (NewRateLimiter 1 9223372036854775807).put "203.0.113.7"
    { tokens := 9223372036854775806, lastSeen := 0 }

/-- The limiter `fullRangeLimiter` after a second call, at 2 ns. -/
def overflowedLimiter : RateLimiter :=
  fullRangeLimiter.put "203.0.113.7" { tokens := -9223372036854775808, lastSeen := 2 }

/-- A bound on the calls of one client that can still be admitted up to time
`stop`, in a state at time `start`: the tokens in the bucket, or a full bucket
when the client has none, plus the whole refill periods left. -/
def admissionBudget (rl : RateLimiter) (clientIP : String) (start stop : Int) : Int :=
  match rl.clients clientIP with
  | none => rl.burst + (stop - start) / rl.rate
  | some c => max c.tokens 0 + (stop - c.lastSeen) / rl.rate

/-- The store invariants that the schema and the code selection maintain: live
rows have non-empty, pairwise different short codes. -/
def StoreOK (db : Database) : Prop :=
  (∀ a ∈ db.urls, a.Deleted = false → a.ShortCode ≠ "") ∧
  ∀ a ∈ db.urls, ∀ b ∈ db.urls, a.Deleted = false → b.Deleted = false →
    a.ShortCode = b.ShortCode → a = b

/-- The cache agrees with the store: a non-empty cached value for a code is the
original URL of the live row holding that code. -/
def CacheCoherent (db : Database) (RDB : Option Redis) : Prop :=
  ∀ r, RDB = some r → ∀ code e, r.data code = some e → e.value ≠ "" →
    ∃ u, firstByShortCode db code = some u ∧ u.OriginalURL = e.value

/-- Entries may leave the cache between two requests (expiry, eviction): every
entry of `after` is an entry of `before`, and the handle is the same. -/
def Evicted (before after : Option Redis) : Prop :=
  match before, after with
  | none, none => True
  | some r, some r1 => ∀ k e, r1.data k = some e → r.data k = some e
  | _, _ => False

/-! ## Sample data -/

/-- A stand-in for `url.Parse` that knows the one URL of the examples. -/
def sampleParse : URLParser := fun s =>
  if s = "http://example.com/page" then some { Scheme := "http", Host := "example.com" }
  else none

/-- Six draws of index 0, then draws of index 1. -/
def sampleDraws : RandSource := fun i => if i < 6 then 0 else 1

/-- A store with one link, whose code is the first one `sampleDraws` produces. -/
def sampleDB : Database :=
  { urls := [{ ID := 1, OriginalURL := "http://other.example/", ShortCode := "000000",
               Title := "", Deleted := false }],
    clicks := [], nextURLID := 2, nextClickID := 1 }

/-- A cache that agrees with `sampleDB`. -/
def sampleCache : Option Redis :=
  some { data := fun k =>
    if k = "000000" then some { value := "http://other.example/", expiration := day } else none }

/-- The store `sampleDB` after the link `111111` has been added. -/
def sampleDBAfter : Database :=
  { urls := [{ ID := 1, OriginalURL := "http://other.example/", ShortCode := "000000",
               Title := "", Deleted := false },
             { ID := 2, OriginalURL := "http://example.com/page", ShortCode := "111111",
               Title := "", Deleted := false }],
    clicks := [], nextURLID := 3, nextClickID := 1 }

/-- The cache `sampleCache` after the write of `111111`. -/
def sampleCacheAfter : Option Redis :=
  (CacheSet sampleCache true "111111" "http://example.com/page" day).1

/-- A store holding the link `abc123` of the spec's scenario. -/
def scenarioDB : Database :=
  { urls := [{ ID := 1, OriginalURL := "http://example.com/page", ShortCode := "abc123",
               Title := "", Deleted := false }],
    clicks := [], nextURLID := 2, nextClickID := 1 }

/-- A cache whose entry for `abc123` is not the URL the store has. -/
def staleCache : Option Redis :=
  some { data := fun k =>
    if k = "abc123" then some { value := "http://stale.example/", expiration := day } else none }

/-- A request as `trackClick` sees it. -/
def sampleRequest : Request := { ClientIP := "203.0.113.7", UserAgent := "curl", Referer := "" }

/-- A stand-in for the rule `url` of the validator that knows the two URLs of the
examples, each with a scheme and a host. -/
def sampleURLRule : URLRule := fun s =>
  s == "http://example.com/page" || s == "http://new.example/"

/-! ## Notions used in the statements about conflicts and repeated resolves -/

/-- No two live links of the store share a short code. -/
def UniqueShortCodes (db : Database) : Prop :=
  ((db.urls.filter fun u => !u.Deleted).map URL.ShortCode).Nodup

/-- Runs `RedirectURL` for the same code once per listed request (with the two
Redis flags of that request), each run followed by the goroutine it started:
the replies, and the database and cache at the end. -/
def RedirectRepeat (db : Database) (RDB : Option Redis) (shortCode : String) :
    List (Bool × Bool × Request) → List Reply × Database × Option Redis
  | [] => ([], db, RDB)
  | (getUp, setUp, r) :: later =>
    let res := RedirectURL getUp setUp db RDB shortCode r
    let db1 :=
      match res.spawned with
      | none => db
      | some (urlID, req) => trackClick urlID req db
    let rest := RedirectRepeat db1 res.RDB shortCode later
    (res.reply :: rest.1, rest.2.1, rest.2.2)

/-- A store with two links: `my-link` for one URL and `abc123` for another. -/
def twoLinksDB : Database :=
  { urls := [{ ID := 1, OriginalURL := "http://other.example/", ShortCode := "my-link",
               Title := "", Deleted := false },
             { ID := 2, OriginalURL := "http://example.com/page", ShortCode := "abc123",
               Title := "", Deleted := false }],
    clicks := [], nextURLID := 3, nextClickID := 1 }

/-- The store `twoLinksDB` after the link `000000` has been added. -/
def twoLinksDBAfter : Database :=
  { urls := [{ ID := 1, OriginalURL := "http://other.example/", ShortCode := "my-link",
               Title := "", Deleted := false },
             { ID := 2, OriginalURL := "http://example.com/page", ShortCode := "abc123",
               Title := "", Deleted := false },
             { ID := 3, OriginalURL := "http://new.example/", ShortCode := "000000",
               Title := "", Deleted := false }],
    clicks := [], nextURLID := 4, nextClickID := 1 }

/-- A store whose only row is a soft-deleted link with the code `000000`, the
first code that `sampleDraws` produces. -/
def deletedRowDB : Database :=
  { urls := [{ ID := 1, OriginalURL := "http://other.example/", ShortCode := "000000",
               Title := "", Deleted := true }],
    clicks := [], nextURLID := 2, nextClickID := 1 }

/-- A store whose only row is a soft-deleted link with the code `my-link`. -/
def deletedLinkDB : Database :=
  { urls := [{ ID := 1, OriginalURL := "http://other.example/", ShortCode := "my-link",
               Title := "", Deleted := true }],
    clicks := [], nextURLID := 2, nextClickID := 1 }

/-- A stand-in for `url.Parse` that knows the URLs `http://new.example/` and
`http://example.com/page`. -/
def newHostParse : URLParser := fun s =>
  if s = "http://new.example/" then some { Scheme := "http", Host := "new.example" }
  else if s = "http://example.com/page" then some { Scheme := "http", Host := "example.com" }
  else none

/-! ## Base-62 encoding (C3, C4) -/

theorem data_singleton_append (c : Char) (r : String) :
    (String.singleton c ++ r).data = c :: r.data := by
  rw [String.data_append]; rfl

theorem index_byteAt_fin : ∀ d : Fin 62,
    toUint32 (IndexRune base62Chars (byteAt base62Chars d.val)) = d.val := by
  decide

theorem index_byteAt (d : Nat) (h : d < 62) :
    toUint32 (IndexRune base62Chars (byteAt base62Chars d)) = d :=
  index_byteAt_fin ⟨d, h⟩

theorem DecodeBase62_eq (str : String) : DecodeBase62 str = str.data.foldl decodeStep 0 := rfl

theorem decode_encodeLoop (fuel : Nat) : ∀ (num : Nat) (acc : String), num ≤ fuel → num < 2 ^ 32 →
    (encodeLoop fuel num acc).data.foldl decodeStep 0 = acc.data.foldl decodeStep num := by
  induction fuel with
  | zero =>
    intro num acc h _
    have : num = 0 := by omega
    subst this
    rfl
  | succ fuel ih =>
    intro num acc h hlt
    unfold encodeLoop
    by_cases hpos : num > 0
    · rw [if_pos hpos, ih (num / 62) _ (by omega) (by omega), data_singleton_append,
        List.foldl_cons]
      congr 1
      unfold decodeStep
      rw [index_byteAt _ (Nat.mod_lt _ (by decide))]
      have h1 : num / 62 * 62 + num % 62 = num := Nat.div_add_mod' num 62
      rw [h1]
      exact Nat.mod_eq_of_lt hlt
    · rw [if_neg hpos]
      have : num = 0 := by omega
      subst this
      rfl

/-- C3. `DecodeBase62 (EncodeBase62 n) = n` for every 32-bit unsigned `n`,
`n = 0` included. -/
theorem decode_encode_roundtrip (n : Nat) (h : n < 2 ^ 32) :
    DecodeBase62 (EncodeBase62 n) = n := by
  rw [DecodeBase62_eq]
  unfold EncodeBase62
  by_cases h0 : n = 0
  · subst h0; rfl
  · rw [if_neg h0, decode_encodeLoop n n "" le_rfl h]
    rfl

/-- C3, instance: the largest 32-bit value. -/
theorem decode_encode_roundtrip_witness :
    (4294967295 : Nat) < 2 ^ 32 ∧ DecodeBase62 (EncodeBase62 4294967295) = 4294967295 :=
  ⟨by decide, decode_encode_roundtrip 4294967295 (by decide)⟩

theorem base62Chars_length : base62Chars.data.length = 62 := by decide

theorem mem_alphabet_iff (c : Char) :
    c ∈ base62Chars.data ↔ ∃ d, d < 62 ∧ c = byteAt base62Chars d := by
  constructor
  · intro h
    obtain ⟨i, hi, rfl⟩ := List.getElem_of_mem h
    refine ⟨i, by rw [← base62Chars_length]; exact hi, ?_⟩
    unfold byteAt
    rw [List.getD_eq_getElem _ _ hi]
  · rintro ⟨d, hd, rfl⟩
    unfold byteAt
    have hi : d < base62Chars.data.length := by rw [base62Chars_length]; exact hd
    rw [List.getD_eq_getElem _ _ hi]
    exact List.getElem_mem _

theorem index_lt (c : Char) (h : c ∈ base62Chars.data) :
    toUint32 (IndexRune base62Chars c) < 62 ∧
      byteAt base62Chars (toUint32 (IndexRune base62Chars c)) = c ∧
      (c ≠ '0' → 0 < toUint32 (IndexRune base62Chars c)) := by
  obtain ⟨d, hd, rfl⟩ := (mem_alphabet_iff c).1 h
  rw [index_byteAt d hd]
  refine ⟨hd, rfl, fun hne => ?_⟩
  rcases Nat.eq_zero_or_pos d with h0 | h0
  · subst h0; exact absurd rfl hne
  · exact h0

theorem le_foldl_valStep (l : List Char) : ∀ a : Nat, a ≤ l.foldl valStep a := by
  induction l with
  | nil => intro a; exact le_rfl
  | cons c t ih =>
    intro a
    rw [List.foldl_cons]
    refine le_trans ?_ (ih _)
    unfold valStep
    omega

theorem foldl_decodeStep_eq_value (l : List Char) :
    l.foldl valStep 0 < 2 ^ 32 → l.foldl decodeStep 0 = l.foldl valStep 0 := by
  induction l using List.reverseRecOn with
  | nil => intro _; rfl
  | append_singleton init c ih =>
    intro h
    rw [List.foldl_append, List.foldl_cons, List.foldl_nil] at h ⊢
    rw [List.foldl_append, List.foldl_cons, List.foldl_nil]
    have hinit : init.foldl valStep 0 < 2 ^ 32 := by
      unfold valStep at h ⊢
      omega
    rw [ih hinit]
    unfold decodeStep
    exact Nat.mod_eq_of_lt h

theorem encodeLoop_zero (fuel : Nat) (acc : String) : encodeLoop fuel 0 acc = acc := by
  cases fuel <;> rfl

theorem value_pos_of_canonical (l : List Char) (h : Canonical l) : 0 < l.foldl valStep 0 := by
  obtain ⟨hall, c, t, rfl, hc⟩ := h
  rw [List.foldl_cons]
  refine lt_of_lt_of_le ?_ (le_foldl_valStep t _)
  have := (index_lt c (hall c (List.mem_cons_self _ _))).2.2 hc
  unfold valStep
  omega

theorem encodeLoop_value (l : List Char) : Canonical l →
    ∀ (fuel : Nat) (acc : String), l.foldl valStep 0 ≤ fuel →
      (encodeLoop fuel (l.foldl valStep 0) acc).data = l ++ acc.data := by
  induction l using List.reverseRecOn with
  | nil =>
    rintro ⟨_, c, t, h, _⟩
    cases h
  | append_singleton init c ih =>
    intro hcan fuel acc hfuel
    have hpos := value_pos_of_canonical _ hcan
    obtain ⟨hall, c0, t0, hl, hc0⟩ := hcan
    have hc := index_lt c (hall c (by simp))
    rw [List.foldl_append, List.foldl_cons, List.foldl_nil] at hfuel hpos ⊢
    obtain ⟨f, rfl⟩ : ∃ f, fuel = f + 1 := ⟨fuel - 1, by omega⟩
    unfold encodeLoop
    rw [if_pos hpos]
    have hdiv : valStep (init.foldl valStep 0) c / 62 = init.foldl valStep 0 := by
      unfold valStep; omega
    have hmod : valStep (init.foldl valStep 0) c % 62 = toUint32 (IndexRune base62Chars c) := by
      unfold valStep; omega
    rw [hdiv, hmod, hc.2.1]
    cases init with
    | nil =>
      rw [List.foldl_nil, encodeLoop_zero, data_singleton_append]
      rfl
    | cons a t =>
      have hcan2 : Canonical (a :: t) := by
        refine ⟨fun x hx => hall x (by simp only [List.mem_append]; exact Or.inl hx), a, t, rfl, ?_⟩
        simp only [List.cons_append, List.cons.injEq] at hl
        rw [hl.1]; exact hc0
      have hV := value_pos_of_canonical _ hcan2
      have hval : valStep (List.foldl valStep 0 (a :: t)) c
          = List.foldl valStep 0 (a :: t) * 62 + toUint32 (IndexRune base62Chars c) := rfl
      rw [hval] at hfuel
      rw [ih hcan2 f _ (by omega), data_singleton_append]
      simp

/-- C4 (amended). `EncodeBase62 (DecodeBase62 x) = x` for every canonical code
string: non-empty, all characters in the alphabet, no leading `'0'` unless the
string is `"0"` itself, and denoting a number below `2 ^ 32`. -/
theorem encode_decode_canonical (x : String)
    (halpha : ∀ c ∈ x.data, c ∈ base62Chars.data)
    (hlead : x = "0" ∨ ∃ c t, x.data = c :: t ∧ c ≠ '0')
    (hfit : base62Value x < 2 ^ 32) :
    EncodeBase62 (DecodeBase62 x) = x := by
  rcases hlead with rfl | hlead
  · rfl
  · have hcan : Canonical x.data := ⟨halpha, hlead⟩
    have hv : DecodeBase62 x = x.data.foldl valStep 0 :=
      foldl_decodeStep_eq_value x.data hfit
    have hpos := value_pos_of_canonical _ hcan
    rw [hv]
    unfold EncodeBase62
    rw [if_neg (by omega)]
    apply String.ext
    rw [encodeLoop_value x.data hcan _ "" le_rfl]
    simp

/-- C4, instance: the code of the largest 32-bit value. -/
theorem encode_decode_canonical_witness :
    EncodeBase62 (DecodeBase62 "4gfFC3") = "4gfFC3" :=
  encode_decode_canonical "4gfFC3" (by decide) (Or.inr ⟨'4', "gfFC3".data, rfl, by decide⟩)
    (by decide)

/-- C4, counterexample: the valid code strings `"00"` (a leading zero digit) and
`"zzzzzzz"` (a value above `2 ^ 32`, which wraps in `DecodeBase62`) are not
returned by `EncodeBase62 (DecodeBase62 x)`. -/
theorem encode_decode_not_identity :
    ("00".data ≠ [] ∧ ∀ c ∈ "00".data, c ∈ base62Chars.data) ∧
    DecodeBase62 "00" = 0 ∧ EncodeBase62 (DecodeBase62 "00") = "0" ∧
    EncodeBase62 (DecodeBase62 "00") ≠ "00" ∧
    ("zzzzzzz".data ≠ [] ∧ ∀ c ∈ "zzzzzzz".data, c ∈ base62Chars.data) ∧
    DecodeBase62 "zzzzzzz" = 4036390783 ∧
    EncodeBase62 (DecodeBase62 "zzzzzzz") ≠ "zzzzzzz" := by
  decide

/-! ## Custom codes and generated codes (C8, C9) -/

theorem inClass_spec (c : Char) :
    inCustomCodeClass c = true ↔ (c.isAlphanum = true ∨ c = '-') := by
  unfold inCustomCodeClass Char.isAlphanum Char.isAlpha Char.isUpper Char.isLower Char.isDigit
  simp only [Bool.or_eq_true, Bool.and_eq_true, decide_eq_true_eq, beq_iff_eq, Char.le_def,
    ge_iff_le]
  constructor
  · rintro (((h | h) | h) | h)
    · exact Or.inl (Or.inl (Or.inr h))
    · exact Or.inl (Or.inl (Or.inl h))
    · exact Or.inl (Or.inr h)
    · exact Or.inr h
  · rintro (((h | h) | h) | h)
    · exact Or.inl (Or.inl (Or.inr h))
    · exact Or.inl (Or.inl (Or.inl h))
    · exact Or.inl (Or.inr h)
    · exact Or.inr h

theorem inClass_utf8Size (c : Char) (h : inCustomCodeClass c = true) : c.utf8Size = 1 := by
  unfold inCustomCodeClass at h
  simp only [Bool.or_eq_true, Bool.and_eq_true, decide_eq_true_eq, beq_iff_eq, Char.le_def] at h
  have hle : c.val.toNat ≤ 127 := by
    rcases h with ((h | h) | h) | h
    · exact Nat.le_trans (show c.val.toNat ≤ 'z'.val.toNat from h.2) (by decide)
    · exact Nat.le_trans (show c.val.toNat ≤ 'Z'.val.toNat from h.2) (by decide)
    · exact Nat.le_trans (show c.val.toNat ≤ '9'.val.toNat from h.2) (by decide)
    · subst h; decide
  unfold Char.utf8Size
  exact if_pos (show c.val.toNat ≤ (127 : UInt32).toNat from hle)

theorem utf8ByteSize_go_eq_length (l : List Char) (h : ∀ c ∈ l, c.utf8Size = 1) :
    String.utf8ByteSize.go l = l.length := by
  induction l with
  | nil => rfl
  | cons c t ih =>
    rw [String.utf8ByteSize.go, ih (fun x hx => h x (List.mem_cons_of_mem _ hx)),
      h c (List.mem_cons_self _ _), List.length_cons]

theorem utf8ByteSize_eq_length (s : String) (h : ∀ c ∈ s.data, inCustomCodeClass c = true) :
    s.utf8ByteSize = s.length := by
  cases s with
  | mk l => exact utf8ByteSize_go_eq_length l (fun c hc => inClass_utf8Size c (h c hc))

/-- C8. `IsValidCustomCode` accepts exactly the strings of 3 to 20 characters all
of which are ASCII letters, ASCII digits or hyphens. -/
theorem IsValidCustomCode_iff (code : String) :
    IsValidCustomCode code = true ↔
      (3 ≤ code.length ∧ code.length ≤ 20 ∧
        ∀ c ∈ code.data, c.isAlphanum = true ∨ c = '-') := by
  unfold IsValidCustomCode matchCustomCodePattern
  constructor
  · intro h
    split at h
    · exact absurd h (by decide)
    · rename_i hlen
      simp only [Bool.or_eq_true, decide_eq_true_eq, not_or, not_lt] at hlen
      simp only [Bool.and_eq_true, List.all_eq_true] at h
      rw [utf8ByteSize_eq_length code h.2] at hlen
      refine ⟨hlen.1, hlen.2, fun c hc => (inClass_spec c).1 (h.2 c hc)⟩
  · rintro ⟨h3, h20, hall⟩
    have hcls : ∀ c ∈ code.data, inCustomCodeClass c = true :=
      fun c hc => (inClass_spec c).2 (hall c hc)
    have hlen := utf8ByteSize_eq_length code hcls
    have hne : code.data.isEmpty = false := by
      cases hd : code.data with
      | nil =>
        have : code.length = 0 := by
          cases code
          simp only at hd
          subst hd
          rfl
        omega
      | cons a t => rfl
    rw [if_neg (by
      simp only [Bool.or_eq_true, decide_eq_true_eq, not_or, not_lt]
      omega)]
    simp only [Bool.and_eq_true, List.all_eq_true, hne, Bool.not_false, true_and]
    exact hcls

/-- C9. `GenerateShortCode` returns exactly six characters, all of the alphabet,
the `i`-th being the alphabet symbol at the `i`-th draw. -/
theorem GenerateShortCode_spec (rnd : RandSource) :
    (GenerateShortCode rnd).length = 6 ∧
      (∀ c ∈ (GenerateShortCode rnd).data, c ∈ base62Chars.data) ∧
      ∀ i : Fin 6, (GenerateShortCode rnd).data[i.val]? = some (byteAt base62Chars (rnd i.val).val) := by
  refine ⟨?_, ?_, ?_⟩
  · simp [GenerateShortCode, String.length, shortCodeLength]
  · intro c hc
    simp only [GenerateShortCode, List.mem_map, List.mem_range] at hc
    obtain ⟨i, _, rfl⟩ := hc
    exact (mem_alphabet_iff _).2 ⟨(rnd i).val, (rnd i).isLt, rfl⟩
  · intro i
    simp [GenerateShortCode, shortCodeLength, List.getElem?_map, List.getElem?_range i.isLt]

/-! ## The token bucket: 64-bit arithmetic -/

theorem wrapInt64_eq (x : Int) (h : IsInt64 x) : wrapInt64 x = x := by
  unfold IsInt64 at h
  unfold wrapInt64
  omega

theorem wrapInt64_isInt64 (x : Int) : IsInt64 (wrapInt64 x) := by
  unfold IsInt64 wrapInt64
  omega

theorem durationSub_self (t : Int) : durationSub t t = 0 := by
  unfold durationSub
  simp

theorem durationSub_eq (t u : Int) (h : IsInt64 (t - u)) : durationSub t u = t - u := by
  unfold IsInt64 at h
  unfold durationSub
  rw [if_neg (by omega), if_neg (by omega)]

theorem durationSub_isInt64 (t u : Int) : IsInt64 (durationSub t u) := by
  unfold IsInt64 durationSub
  split
  · omega
  · split <;> omega

theorem durationSub_nonneg (t u : Int) (h : u ≤ t) :
    0 ≤ durationSub t u ∧ durationSub t u ≤ t - u ∧
      (t - u ≤ 9223372036854775807 → durationSub t u = t - u) ∧
      (9223372036854775807 < t - u → durationSub t u = 9223372036854775807) := by
  unfold durationSub
  split
  · omega
  · rw [if_neg (by omega)]
    omega

theorem durationSub_neg (t u : Int) (h : t < u) : durationSub t u < 0 := by
  unfold durationSub
  rw [if_neg (by omega)]
  split <;> omega

theorem durationSub_gt_hour (s u : Int) : durationSub s u > hour ↔ s - u > hour := by
  unfold durationSub hour
  split
  · omega
  · split <;> omega

/-- Truncated division of a non-positive 64-bit value by a positive one stays
between the dividend and zero. -/
theorem tdiv_nonpos_bounds (a r : Int) (ha : a ≤ 0) (hr : 0 < r) :
    a ≤ Int.tdiv a r ∧ Int.tdiv a r ≤ 0 := by
  have h1 : Int.tdiv a r = -((-a) / r) := by
    have := Int.neg_tdiv (-a) r
    rw [neg_neg] at this
    rw [this, Int.tdiv_eq_ediv (by omega) (le_of_lt hr)]
  have h2 : 0 ≤ (-a) / r := Int.ediv_nonneg (by omega) (le_of_lt hr)
  have h3 : (-a) / r ≤ -a := Int.ediv_le_self r (by omega)
  omega

theorem tokensToAdd_nonpos (rl : RateLimiter) (client : ClientLimiter) (now : Int)
    (hr : 0 < rl.rate) (h : now - client.lastSeen < rl.rate) :
    tokensToAdd rl client now ≤ 0 := by
  unfold tokensToAdd
  by_cases hneg : now < client.lastSeen
  · have hd := durationSub_neg now client.lastSeen hneg
    have hrange := durationSub_isInt64 now client.lastSeen
    have hb := tdiv_nonpos_bounds _ rl.rate (le_of_lt hd) hr
    unfold IsInt64 at hrange
    rw [wrapInt64_eq _ (by unfold IsInt64; omega)]
    exact hb.2
  · have hd := durationSub_nonneg now client.lastSeen (by omega)
    have hrate := rl.rate_int64
    unfold IsInt64 at hrate
    rw [hd.2.2.1 (by omega), Int.tdiv_eq_zero_of_lt (by omega) h]
    exact le_of_eq rfl

theorem tokensToAdd_pos (rl : RateLimiter) (client : ClientLimiter) (now : Int)
    (hr : 0 < rl.rate) (h : rl.rate ≤ now - client.lastSeen) :
    1 ≤ tokensToAdd rl client now ∧
      tokensToAdd rl client now ≤ (now - client.lastSeen) / rl.rate ∧
      tokensToAdd rl client now ≤ 9223372036854775807 / rl.rate ∧
      tokensToAdd rl client now = durationSub now client.lastSeen / rl.rate := by
  have hd := durationSub_nonneg now client.lastSeen (by omega)
  have hrange := durationSub_isInt64 now client.lastSeen
  have hrate := rl.rate_int64
  unfold IsInt64 at hrate hrange
  have hge : rl.rate ≤ durationSub now client.lastSeen := by
    by_cases hbig : now - client.lastSeen ≤ 9223372036854775807
    · rw [hd.2.2.1 hbig]; exact h
    · rw [hd.2.2.2 (by omega)]; exact hrate.2
  have hq1 : 1 ≤ durationSub now client.lastSeen / rl.rate :=
    (Int.le_ediv_iff_mul_le hr).2 (by omega)
  have hq2 : durationSub now client.lastSeen / rl.rate ≤ durationSub now client.lastSeen :=
    Int.ediv_le_self _ hd.1
  have hq3 := Int.ediv_le_ediv hr hd.2.1
  have hq4 := Int.ediv_le_ediv hr hrange.2
  unfold tokensToAdd
  rw [Int.tdiv_eq_ediv hd.1 (le_of_lt hr), wrapInt64_eq _ (by unfold IsInt64; omega)]
  exact ⟨hq1, hq3, hq4, rfl⟩

theorem put_clients_self (rl : RateLimiter) (k : String) (c : ClientLimiter) :
    (rl.put k c).clients k = some c := by
  simp [RateLimiter.put]

theorem put_clients_other (rl : RateLimiter) (k k1 : String) (c : ClientLimiter) (h : k1 ≠ k) :
    (rl.put k c).clients k1 = rl.clients k1 := by
  simp [RateLimiter.put, h]

theorem Allow_new (rl : RateLimiter) (k : String) (now : Int) (hnew : rl.clients k = none) :
    Allow rl k now
      = some (rl.put k { tokens := wrapInt64 (rl.burst - 1), lastSeen := now }, true) := by
  unfold Allow
  rw [hnew]

theorem Allow_known (rl : RateLimiter) (k : String) (now : Int) (client : ClientLimiter)
    (hc : rl.clients k = some client) (hr : rl.rate ≠ 0) :
    Allow rl k now =
      if (refilled rl client now).tokens > 0 then
        some (rl.put k { tokens := wrapInt64 ((refilled rl client now).tokens - 1),
                         lastSeen := (refilled rl client now).lastSeen }, true)
      else some (rl.put k (refilled rl client now), false) := by
  unfold Allow refilled tokensToAdd
  rw [hc]
  simp only [if_neg hr]

theorem Allow_known_zero_rate (rl : RateLimiter) (k : String) (now : Int) (client : ClientLimiter)
    (hc : rl.clients k = some client) (hr : rl.rate = 0) : Allow rl k now = none := by
  unfold Allow
  rw [hc]
  simp only [if_pos hr]

/-- A call for a known bucket with no time elapsed since its last refill. -/
theorem Allow_same_instant (rl : RateLimiter) (k : String) (now t : Int)
    (hrate : 0 < rl.rate) (hc : rl.clients k = some { tokens := t, lastSeen := now }) :
    Allow rl k now =
      if t > 0 then some (rl.put k { tokens := wrapInt64 (t - 1), lastSeen := now }, true)
      else some (rl.put k { tokens := t, lastSeen := now }, false) := by
  have hz : refilled rl { tokens := t, lastSeen := now } now = { tokens := t, lastSeen := now } := by
    have := tokensToAdd_nonpos rl { tokens := t, lastSeen := now } now hrate
      (by simp only [sub_self]; exact hrate)
    unfold refilled
    rw [if_neg (by omega)]
  rw [Allow_known rl k now _ hc (ne_of_gt hrate), hz]

/-! ## The token bucket: bursts, refills and the invariant (C5, C6, C7) -/

/-- The first `n ≤ B` calls of a fresh key are admitted and leave `B - n`
tokens. -/
theorem AllowRepeat_fresh (rl : RateLimiter) (k : String) (now : Int) (B : Nat)
    (hburst : rl.burst = B) (hrate : 0 < rl.rate) (hnew : rl.clients k = none) :
    ∀ n, n < B → ∃ rl1, AllowRepeat rl k now (n + 1) = some (rl1, List.replicate (n + 1) true) ∧
      rl1.clients k = some { tokens := (B : Int) - (n + 1 : Nat), lastSeen := now } ∧
      rl1.rate = rl.rate ∧ rl1.burst = rl.burst := by
  have hrange := rl.burst_int64
  rw [hburst] at hrange
  unfold IsInt64 at hrange
  intro n
  induction n with
  | zero =>
    intro hn
    refine ⟨rl.put k { tokens := wrapInt64 (rl.burst - 1), lastSeen := now }, ?_, ?_, rfl, rfl⟩
    · simp [AllowRepeat, Allow_new rl k now hnew]
    · rw [put_clients_self, hburst, wrapInt64_eq _ (by unfold IsInt64; omega)]
      simp
  | succ n ih =>
    intro hn
    obtain ⟨rl1, hrun, hc, hr, hb⟩ := ih (by omega)
    have hstep := Allow_same_instant rl1 k now _ (by rw [hr]; exact hrate) hc
    rw [if_pos (by push_cast; omega),
      wrapInt64_eq _ (by unfold IsInt64; push_cast; omega)] at hstep
    refine ⟨rl1.put k { tokens := (B : Int) - (n + 1 : Nat) - 1, lastSeen := now },
      ?_, ?_, hr, hb⟩
    · rw [AllowRepeat, hrun]
      simp only [hstep]
      rw [← List.replicate_succ']
    · have e : (B : Int) - ((n + 1 : Nat) : Int) - 1 = (B : Int) - ((n + 1 + 1 : Nat) : Int) := by
        push_cast; ring
      rw [put_clients_self, e]

/-- After `B + 1` calls at one instant the bucket of a fresh key is empty, the
first `B` having been admitted and the last rejected. -/
theorem AllowRepeat_exhaust (rl : RateLimiter) (k : String) (now : Int) (B : Nat)
    (hB : 1 ≤ B) (hburst : rl.burst = B) (hrate : 0 < rl.rate) (hnew : rl.clients k = none) :
    ∃ rl1, AllowRepeat rl k now (B + 1) = some (rl1, List.replicate B true ++ [false]) ∧
      rl1.clients k = some { tokens := 0, lastSeen := now } ∧
      rl1.rate = rl.rate ∧ rl1.burst = rl.burst := by
  obtain ⟨n, rfl⟩ : ∃ n, B = n + 1 := ⟨B - 1, by omega⟩
  obtain ⟨rl1, hrun, hc, hr, hb⟩ := AllowRepeat_fresh rl k now (n + 1) hburst hrate hnew n (by omega)
  have hz : ((n + 1 : Nat) : Int) - ((n + 1 : Nat) : Int) = 0 := sub_self _
  rw [hz] at hc
  have hstep := Allow_same_instant rl1 k now _ (by rw [hr]; exact hrate) hc
  rw [if_neg (by decide)] at hstep
  refine ⟨rl1.put k { tokens := 0, lastSeen := now }, ?_, put_clients_self _ _ _, hr, hb⟩
  rw [AllowRepeat, hrun]
  simp only [hstep]

/-- C5 (amended). For burst `B ≥ 1` and a positive refill period, `B + 1` calls
at one instant for a key never seen before return `true` exactly `B` times and
then `false`. -/
theorem burst_admits_exactly (rl : RateLimiter) (clientIP : String) (now : Int) (B : Nat)
    (hB : 1 ≤ B) (hburst : rl.burst = B) (hrate : 0 < rl.rate)
    (hnew : rl.clients clientIP = none) :
    resultsOf (AllowRepeat rl clientIP now (B + 1)) = some (List.replicate B true ++ [false]) := by
  obtain ⟨rl1, hrun, _⟩ := AllowRepeat_exhaust rl clientIP now B hB hburst hrate hnew
  rw [hrun]; rfl

/-- C5, instance: the link-creation limiter `NewRateLimiter(6*time.Second, 10)`. -/
theorem burst_admits_exactly_witness :
    resultsOf (AllowRepeat (NewRateLimiter 6000000000 10) "203.0.113.7" 0 (10 + 1))
      = some (List.replicate 10 true ++ [false]) :=
  burst_admits_exactly (NewRateLimiter 6000000000 10) "203.0.113.7" 0 10 (by decide) rfl
    (by decide) rfl

/-- C5, counterexample: with burst `B = 0` the first call of a fresh key, which is
call `B + 1`, is admitted, where the claim has no call admitted and call `B + 1`
rejected. -/
theorem burst_zero_admits_first :
    resultsOf (AllowRepeat (NewRateLimiter 6000000000 0) "203.0.113.7" 0 (0 + 1)) = some [true] ∧
    resultsOf (AllowRepeat (NewRateLimiter 6000000000 0) "203.0.113.7" 0 (0 + 1))
      ≠ some (List.replicate 0 true ++ [false]) := by
  decide

/-- Cleanup passes up to one hour after a bucket's timestamp leave the bucket,
the rate and the burst as they are. -/
theorem cleanup_passes_keep (k : String) (bucket : ClientLimiter) (sweeps : List Int) :
    ∀ rl : RateLimiter, rl.clients k = some bucket →
      (∀ s ∈ sweeps, s - bucket.lastSeen ≤ hour) →
      (sweeps.foldl cleanup rl).clients k = some bucket ∧
        (sweeps.foldl cleanup rl).rate = rl.rate ∧ (sweeps.foldl cleanup rl).burst = rl.burst := by
  induction sweeps with
  | nil => intro rl h _; exact ⟨h, rfl, rfl⟩
  | cons s later ih =>
    intro rl h hs
    have hkeep : (cleanup rl s).clients k = some bucket := by
      have hle := hs s (List.mem_cons_self _ _)
      have hnot : ¬ durationSub s bucket.lastSeen > hour := by
        rw [durationSub_gt_hour]; omega
      simp only [cleanup, h, if_neg hnot]
    have := ih (cleanup rl s) hkeep (fun x hx => hs x (List.mem_cons_of_mem _ hx))
    exact this

/-- Cleanup passes leave the bucket of a client as it is or delete it, and leave
the rate and the burst as they are. -/
theorem cleanup_passes_either (k : String) (sweeps : List Int) :
    ∀ rl : RateLimiter,
      ((sweeps.foldl cleanup rl).clients k = rl.clients k ∨
          (sweeps.foldl cleanup rl).clients k = none) ∧
        (sweeps.foldl cleanup rl).rate = rl.rate ∧ (sweeps.foldl cleanup rl).burst = rl.burst := by
  induction sweeps with
  | nil => intro rl; exact ⟨Or.inl rfl, rfl, rfl⟩
  | cons s later ih =>
    intro rl
    obtain ⟨hc, hr, hb⟩ := ih (cleanup rl s)
    refine ⟨?_, hr, hb⟩
    have hone : (cleanup rl s).clients k = rl.clients k ∨ (cleanup rl s).clients k = none := by
      simp only [cleanup]
      cases rl.clients k with
      | none => exact Or.inl rfl
      | some c =>
        simp only
        split
        · exact Or.inr rfl
        · exact Or.inl rfl
    simp only [List.foldl_cons]
    rcases hc with h | h
    · rcases hone with h1 | h1
      · exact Or.inl (h.trans h1)
      · exact Or.inr (h.trans h1)
    · exact Or.inr h

/-- One refill period after the bucket was emptied, of two calls the first is
admitted and the second rejected. -/
theorem refill_after_period (rl : RateLimiter) (k : String) (t0 : Int)
    (hrate : 0 < rl.rate) (hburst : 1 ≤ rl.burst)
    (hc : rl.clients k = some { tokens := 0, lastSeen := t0 }) :
    resultsOf (AllowRepeat rl k (t0 + rl.rate) 2) = some [true, false] := by
  have hadd := tokensToAdd_pos rl { tokens := 0, lastSeen := t0 } (t0 + rl.rate) hrate
    (by simp only; omega)
  have hone : tokensToAdd rl { tokens := 0, lastSeen := t0 } (t0 + rl.rate) = 1 := by
    have hq : (t0 + rl.rate - t0) / rl.rate = 1 := by
      rw [add_sub_cancel_left]
      exact Int.ediv_self (ne_of_gt hrate)
    have := hadd.2.1
    simp only at this
    rw [hq] at this
    omega
  have hrefill : refilled rl { tokens := 0, lastSeen := t0 } (t0 + rl.rate)
      = { tokens := 1, lastSeen := t0 + rl.rate } := by
    unfold refilled
    rw [hone, if_pos (by decide)]
    simp only [zero_add]
    rw [wrapInt64_eq 1 (by unfold IsInt64; omega), if_neg (by omega)]
  have hfirst := Allow_known rl k (t0 + rl.rate) _ hc (ne_of_gt hrate)
  rw [hrefill, if_pos (show (1 : Int) > 0 by decide)] at hfirst
  simp only [sub_self] at hfirst
  rw [wrapInt64_eq 0 (by unfold IsInt64; omega)] at hfirst
  have hsecond := Allow_same_instant
    (rl.put k { tokens := 0, lastSeen := t0 + rl.rate }) k (t0 + rl.rate) 0 hrate
    (put_clients_self _ _ _)
  rw [if_neg (by decide)] at hsecond
  simp [resultsOf, AllowRepeat, hfirst, hsecond]

/-- C6 (amended). For burst `B ≥ 1` and a refill period `r > 0`, with `r ≤ 1 h`
or `B = 1`: once `B + 1` calls at time `t0` have emptied the bucket of a fresh
key, and whatever cleanup passes run up to `t0 + r`, of two calls made at
`t0 + r` the first is admitted and the second rejected. -/
theorem refill_admits_one (rl : RateLimiter) (clientIP : String) (t0 : Int) (B : Nat)
    (sweeps : List Int) (hB : 1 ≤ B) (hburst : rl.burst = B) (hrate : 0 < rl.rate)
    (hhour : rl.rate ≤ hour ∨ B = 1) (hnew : rl.clients clientIP = none)
    (hsweeps : ∀ s ∈ sweeps, s ≤ t0 + rl.rate) :
    ∃ rl1 results, AllowRepeat rl clientIP t0 (B + 1) = some (rl1, results) ∧
      resultsOf (AllowRepeat (sweeps.foldl cleanup rl1) clientIP (t0 + rl.rate) 2)
        = some [true, false] := by
  obtain ⟨rl1, hrun, hc, hr, hb⟩ := AllowRepeat_exhaust rl clientIP t0 B hB hburst hrate hnew
  refine ⟨rl1, _, hrun, ?_⟩
  obtain ⟨hc2, hr2, hb2⟩ := cleanup_passes_either clientIP sweeps rl1
  have hr3 : (sweeps.foldl cleanup rl1).rate = rl.rate := by rw [hr2, hr]
  have hb3 : (sweeps.foldl cleanup rl1).burst = (B : Int) := by rw [hb2, hb, hburst]
  have hpos : 0 < (sweeps.foldl cleanup rl1).rate := by rw [hr3]; exact hrate
  rcases hc2 with hkept | hgone
  · have := refill_after_period (sweeps.foldl cleanup rl1) clientIP t0 hpos
      (by rw [hb3]; exact_mod_cast hB) (hkept.trans hc)
    rw [hr3] at this
    exact this
  · rcases hhour with hle | hone
    · have hkeep := (cleanup_passes_keep clientIP { tokens := 0, lastSeen := t0 } sweeps
        rl1 hc (fun s hs => by have := hsweeps s hs; simp only; omega)).1
      rw [hgone] at hkeep
      cases hkeep
    · subst hone
      obtain ⟨rl2, hrun2, _⟩ := AllowRepeat_exhaust (sweeps.foldl cleanup rl1) clientIP
        (t0 + rl.rate) 1 (le_refl 1) hb3 hpos hgone
      rw [hrun2]
      rfl

/-- C6, instance: the link-creation limiter `NewRateLimiter(6*time.Second, 10)`,
with cleanup passes at 1 s and at 6 s. -/
theorem refill_admits_one_witness :
    ∃ rl1 results,
      AllowRepeat (NewRateLimiter 6000000000 10) "203.0.113.7" 0 (10 + 1) = some (rl1, results) ∧
      resultsOf (AllowRepeat ([1000000000, 6000000000].foldl cleanup rl1) "203.0.113.7"
          (0 + (NewRateLimiter 6000000000 10).rate) 2)
        = some [true, false] :=
  refill_admits_one (NewRateLimiter 6000000000 10) "203.0.113.7" 0 10
    [1000000000, 6000000000] (by decide) rfl (by decide) (Or.inl (by decide)) rfl (by decide)

/-- C6, counterexample: with burst 0 and period 6 s, the `B + 1 = 1` calls at
time 0 leave the limiter `drainedZero`, and two calls one period later are both
rejected, where the claim has the first of them admitted; with burst 2 and
period 2 h, the `B + 1 = 3` calls at time 0 leave the limiter `slowDrained`, the
cleanup pass at 3660 s deletes its bucket, and two calls one period later are
both admitted. -/
theorem refill_not_exactly_one :
    AllowRepeat (NewRateLimiter 6000000000 0) "203.0.113.7" 0 (0 + 1)
      = some (drainedZero, [true]) ∧
    resultsOf (AllowRepeat drainedZero "203.0.113.7" (0 + 6000000000) 2)
      = some [false, false] ∧
    AllowRepeat (NewRateLimiter 7200000000000 2) "203.0.113.7" 0 (2 + 1)
      = some (slowDrained, [true, true, false]) ∧
    (cleanup slowDrained 3660000000000).clients "203.0.113.7" = none ∧
    resultsOf (AllowRepeat (cleanup slowDrained 3660000000000) "203.0.113.7"
        (0 + 7200000000000) 2)
      = some [true, true] :=
  ⟨rfl, by decide, rfl, by decide, by decide⟩

theorem Allow_params (rl rl1 : RateLimiter) (k : String) (now : Int) (ok : Bool)
    (h : Allow rl k now = some (rl1, ok)) : rl1.rate = rl.rate ∧ rl1.burst = rl.burst := by
  cases hc : rl.clients k with
  | none =>
    rw [Allow_new rl k now hc] at h
    simp only [Option.some.injEq, Prod.mk.injEq] at h
    rw [← h.1]
    exact ⟨rfl, rfl⟩
  | some client =>
    by_cases hr : rl.rate = 0
    · rw [Allow_known_zero_rate rl k now client hc hr] at h
      cases h
    · rw [Allow_known rl k now client hc hr] at h
      split at h <;>
        (simp only [Option.some.injEq, Prod.mk.injEq] at h
         rw [← h.1]
         exact ⟨rfl, rfl⟩)

theorem TokensInRange_put (rl : RateLimiter) (k : String) (c : ClientLimiter)
    (h : TokensInRange rl) (hc : 0 ≤ c.tokens ∧ c.tokens ≤ rl.burst - 1) :
    TokensInRange (rl.put k c) := by
  intro k1 client hk
  by_cases hk1 : k1 = k
  · subst hk1
    rw [put_clients_self] at hk
    cases hk
    exact hc
  · rw [put_clients_other _ _ _ _ hk1] at hk
    exact h k1 client hk

/-- When the refill addition cannot overflow, the refill step takes a count
between 0 and `burst - 1` to a count between 0 and `burst`. -/
theorem refilled_range (rl : RateLimiter) (client : ClientLimiter) (now : Int)
    (hb : 1 ≤ rl.burst)
    (hfit : ∀ elapsed, IsInt64 elapsed →
      rl.burst - 1 + wrapInt64 (Int.tdiv elapsed rl.rate) ≤ 9223372036854775807)
    (h : 0 ≤ client.tokens ∧ client.tokens ≤ rl.burst - 1) :
    0 ≤ (refilled rl client now).tokens ∧ (refilled rl client now).tokens ≤ rl.burst := by
  have hadd := hfit _ (durationSub_isInt64 now client.lastSeen)
  unfold refilled
  split
  · rename_i hpos
    unfold tokensToAdd at hpos ⊢
    rw [wrapInt64_eq (client.tokens + _) (by unfold IsInt64; omega)]
    simp only
    split <;> omega
  · omega

theorem TokensInRange_Allow (rl rl1 : RateLimiter) (k : String) (now : Int) (ok : Bool)
    (hb : 1 ≤ rl.burst)
    (hfit : ∀ elapsed, IsInt64 elapsed →
      rl.burst - 1 + wrapInt64 (Int.tdiv elapsed rl.rate) ≤ 9223372036854775807)
    (h : TokensInRange rl) (hstep : Allow rl k now = some (rl1, ok)) :
    TokensInRange rl1 := by
  have hrange := rl.burst_int64
  unfold IsInt64 at hrange
  cases hc : rl.clients k with
  | none =>
    rw [Allow_new rl k now hc] at hstep
    simp only [Option.some.injEq, Prod.mk.injEq] at hstep
    rw [← hstep.1]
    refine TokensInRange_put rl k _ h ?_
    simp only
    rw [wrapInt64_eq _ (by unfold IsInt64; omega)]
    omega
  | some client =>
    by_cases hr : rl.rate = 0
    · rw [Allow_known_zero_rate rl k now client hc hr] at hstep
      cases hstep
    · have hbounds := refilled_range rl client now hb hfit (h k client hc)
      rw [Allow_known rl k now client hc hr] at hstep
      split at hstep
      · simp only [Option.some.injEq, Prod.mk.injEq] at hstep
        rw [← hstep.1]
        refine TokensInRange_put rl k _ h ?_
        simp only
        rw [wrapInt64_eq _ (by unfold IsInt64; omega)]
        omega
      · simp only [Option.some.injEq, Prod.mk.injEq] at hstep
        rw [← hstep.1]
        exact TokensInRange_put rl k _ h (by omega)

theorem TokensInRange_cleanup (rl : RateLimiter) (now : Int) (h : TokensInRange rl) :
    TokensInRange (cleanup rl now) := by
  intro k client hk
  simp only [cleanup] at hk
  cases hc : rl.clients k with
  | none => rw [hc] at hk; cases hk
  | some c0 =>
    rw [hc] at hk
    simp only at hk
    split at hk
    · cases hk
    · cases hk
      exact h k _ hc

/-- For a positive period the refill adds at most `floor (MaxInt64 / period)`
tokens, so the addition cannot overflow when
`burst - 1 + floor (MaxInt64 / period) ≤ MaxInt64`. -/
theorem refill_fits_of_pos_rate (rl : RateLimiter) (hr : 0 < rl.rate)
    (h : rl.burst - 1 + 9223372036854775807 / rl.rate ≤ 9223372036854775807) :
    ∀ elapsed, IsInt64 elapsed →
      rl.burst - 1 + wrapInt64 (Int.tdiv elapsed rl.rate) ≤ 9223372036854775807 := by
  intro elapsed he
  have hburst := rl.burst_int64
  unfold IsInt64 at he hburst
  by_cases hneg : elapsed ≤ 0
  · have hb := tdiv_nonpos_bounds elapsed rl.rate hneg hr
    rw [wrapInt64_eq _ (by unfold IsInt64; omega)]
    omega
  · have hq := Int.ediv_le_ediv hr he.2
    have hq0 : 0 ≤ elapsed / rl.rate := Int.ediv_nonneg (by omega) (le_of_lt hr)
    have hq1 : elapsed / rl.rate ≤ elapsed := Int.ediv_le_self _ (by omega)
    rw [Int.tdiv_eq_ediv (by omega) (le_of_lt hr), wrapInt64_eq _ (by unfold IsInt64; omega)]
    omega

/-- C7 (amended). For a limiter with burst at least 1 whose refill addition
cannot overflow (`burst - 1` plus the token number `elapsed / period` of any
64-bit elapsed time is at most `MaxInt64`), in every state reachable from
`NewRateLimiter` by `Allow` calls and cleanup passes every bucket holds between
0 and `burst` tokens. -/
theorem tokens_in_range (rate burst : Int) (rl : RateLimiter)
    (hreach : Reachable rate burst rl) (hb : 1 ≤ rl.burst)
    (hfit : ∀ elapsed, IsInt64 elapsed →
      rl.burst - 1 + wrapInt64 (Int.tdiv elapsed rl.rate) ≤ 9223372036854775807)
    (clientIP : String) (client : ClientLimiter)
    (hclient : rl.clients clientIP = some client) :
    0 ≤ client.tokens ∧ client.tokens ≤ rl.burst := by
  have hinv : TokensInRange rl := by
    clear hclient
    induction hreach with
    | init => intro k client hk; cases hk
    | allow k now _ hstep ih =>
      obtain ⟨hrate, hburst⟩ := Allow_params _ _ k now _ hstep
      rw [hburst] at hb
      rw [hrate, hburst] at hfit
      exact TokensInRange_Allow _ _ k now _ hb hfit (ih hb hfit) hstep
    | sweep now _ ih => exact TokensInRange_cleanup _ now (ih hb hfit)
  have := hinv clientIP client hclient
  omega

theorem sampleLimiter_reachable : Reachable 6000000000 10 sampleLimiter :=
  Reachable.allow "203.0.113.7" 0 Reachable.init rfl

/-- C7, instance: the bucket of `sampleLimiter`, reached by one call on a limiter
of burst 10 and period 6 s, holds 9 tokens. -/
theorem tokens_in_range_witness :
    Reachable 6000000000 10 sampleLimiter ∧
    sampleLimiter.clients "203.0.113.7" = some { tokens := 9, lastSeen := 0 } ∧
    (0 ≤ (ClientLimiter.mk 9 0).tokens ∧ (ClientLimiter.mk 9 0).tokens ≤ sampleLimiter.burst) :=
  ⟨sampleLimiter_reachable, by decide,
    tokens_in_range 6000000000 10 sampleLimiter sampleLimiter_reachable (by decide)
      (refill_fits_of_pos_rate sampleLimiter (by decide) (by decide))
      "203.0.113.7" { tokens := 9, lastSeen := 0 } (by decide)⟩

/-- C7, counterexample: `NewRateLimiter(6*time.Second, 0)` followed by one `Allow`
reaches `drainedZero`, whose bucket holds -1 tokens; and
`NewRateLimiter(1, math.MaxInt64)` followed by calls at 0 and at 2 ns reaches
`overflowedLimiter`, where the addition of two tokens to `MaxInt64 - 1` has
wrapped and the bucket holds `MinInt64` tokens. -/
theorem tokens_out_of_range :
    Reachable 6000000000 0 drainedZero ∧
    drainedZero.clients "203.0.113.7" = some { tokens := -1, lastSeen := 0 } ∧
    Reachable 1 9223372036854775807 overflowedLimiter ∧
    1 ≤ overflowedLimiter.burst ∧
    overflowedLimiter.clients "203.0.113.7"
      = some { tokens := -9223372036854775808, lastSeen := 2 } :=
  ⟨Reachable.allow "203.0.113.7" 0 Reachable.init rfl, by decide,
    Reachable.allow "203.0.113.7" 2 (Reachable.allow "203.0.113.7" 0 Reachable.init rfl) rfl,
    by decide, by decide⟩

/-! ## Create and resolve (C1, C2, C10) -/

theorem firstByShortCode_some {db : Database} {code : String} {u : URL}
    (h : firstByShortCode db code = some u) :
    u ∈ db.urls ∧ u.Deleted = false ∧ u.ShortCode = code := by
  unfold firstByShortCode at h
  have hp := List.find?_some h
  simp only [Bool.and_eq_true, Bool.not_eq_true', beq_iff_eq] at hp
  exact ⟨List.mem_of_find?_eq_some h, hp.1, hp.2⟩

theorem firstByOriginalURL_some {db : Database} {x : String} {u : URL}
    (h : firstByOriginalURL db x = some u) :
    u ∈ db.urls ∧ u.Deleted = false ∧ u.OriginalURL = x := by
  unfold firstByOriginalURL at h
  have hp := List.find?_some h
  simp only [Bool.and_eq_true, Bool.not_eq_true', beq_iff_eq] at hp
  exact ⟨List.mem_of_find?_eq_some h, hp.1, hp.2⟩

theorem firstByShortCode_of_mem {db : Database} {u : URL} (hu : u ∈ db.urls)
    (hlive : u.Deleted = false) : ∃ v, firstByShortCode db u.ShortCode = some v := by
  cases h : firstByShortCode db u.ShortCode with
  | some v => exact ⟨v, rfl⟩
  | none =>
    unfold firstByShortCode at h
    have := List.find?_eq_none.1 h u hu
    simp [hlive] at this

theorem createURL_some {db db1 : Database} {x code title : String} {newURL : URL}
    (h : createURL db x code title = some (db1, newURL)) :
    newURL = { ID := db.nextURLID, OriginalURL := x, ShortCode := code, Title := title,
               Deleted := false } ∧
      db1.urls = db.urls ++ [newURL] ∧ db1.clicks = db.clicks := by
  unfold createURL at h
  split at h
  · cases h
  · simp only [Option.some.injEq, Prod.mk.injEq] at h
    obtain ⟨h1, h2⟩ := h
    subst h2
    subst h1
    exact ⟨rfl, rfl, rfl⟩

theorem firstByShortCode_created {db db1 : Database} {x code title : String} {newURL : URL}
    (h : createURL db x code title = some (db1, newURL))
    (hfree : firstByShortCode db code = none) :
    firstByShortCode db1 code = some newURL := by
  obtain ⟨hnew, hurls, _⟩ := createURL_some h
  unfold firstByShortCode at hfree ⊢
  rw [hurls, List.find?_append, hfree]
  simp [hnew]

theorem firstByOriginalURL_created {db db1 : Database} {x code title : String} {newURL : URL}
    (h : createURL db x code title = some (db1, newURL))
    (hfree : firstByOriginalURL db x = none) :
    firstByOriginalURL db1 x = some newURL := by
  obtain ⟨hnew, hurls, _⟩ := createURL_some h
  unfold firstByOriginalURL at hfree ⊢
  rw [hurls, List.find?_append, hfree]
  simp [hnew]

theorem GenerateShortCode_ne_empty (rnd : RandSource) : GenerateShortCode rnd ≠ "" := by
  intro h
  have hlen : (GenerateShortCode rnd).length = 6 := by
    simp [GenerateShortCode, String.length, shortCodeLength]
  rw [h] at hlen
  exact absurd hlen (by decide)

theorem generateUnusedCode_some (db : Database) (fuel : Nat) :
    ∀ (rnd : RandSource) (code : String), generateUnusedCode db fuel rnd = some code →
      firstByShortCode db code = none ∧ code ≠ "" := by
  induction fuel with
  | zero => intro rnd code h; cases h
  | succ fuel ih =>
    intro rnd code h
    unfold generateUnusedCode at h
    split at h
    · rename_i hfree
      cases h
      exact ⟨hfree, GenerateShortCode_ne_empty rnd⟩
    · exact ih _ _ h

theorem GenerateShortCode_valid (rnd : RandSource) :
    IsValidCustomCode (GenerateShortCode rnd) = true := by
  have hclass : ∀ c ∈ (GenerateShortCode rnd).data, inCustomCodeClass c = true := by
    intro c hc
    simp only [GenerateShortCode, List.mem_map] at hc
    obtain ⟨i, _, rfl⟩ := hc
    exact (by decide : ∀ d : Fin 62, inCustomCodeClass (byteAt base62Chars d.val) = true) (rnd i)
  have hlen : (GenerateShortCode rnd).length = 6 := by
    simp [GenerateShortCode, String.length, shortCodeLength]
  have hsize := utf8ByteSize_eq_length (GenerateShortCode rnd) hclass
  have hne : (GenerateShortCode rnd).data ≠ [] := by
    intro he
    have : (GenerateShortCode rnd).length = 0 := by simp [String.length, he]
    omega
  unfold IsValidCustomCode matchCustomCodePattern
  rw [hsize, hlen, if_neg (by decide), Bool.and_eq_true]
  refine ⟨?_, List.all_eq_true.2 hclass⟩
  cases hd : (GenerateShortCode rnd).data with
  | nil => exact absurd hd hne
  | cons _ _ => rfl

theorem generateUnusedCode_valid (db : Database) (fuel : Nat) :
    ∀ (rnd : RandSource) (code : String), generateUnusedCode db fuel rnd = some code →
      IsValidCustomCode code = true := by
  induction fuel with
  | zero => intro rnd code h; cases h
  | succ fuel ih =>
    intro rnd code h
    unfold generateUnusedCode at h
    split at h
    · cases h
      exact GenerateShortCode_valid rnd
    · exact ih _ _ h

/-- A request that the binding rules refuse is answered 400 "Invalid JSON
format", with the store and the cache left as they were. -/
theorem ShortenURL_unbound (isURL : URLRule) (parse : URLParser) (rnd : RandSource)
    (fuel : Nat) (redisUp : Bool) (baseURL : String) (db : Database) (RDB : Option Redis)
    (req : CreateURLRequest) (h : ShouldBindJSON isURL req = false) :
    ShortenURL isURL parse rnd fuel redisUp baseURL db RDB req
      = some (Reply.error 400 "Invalid JSON format", db, RDB) := by
  unfold ShortenURL
  simp only [h, Bool.not_false, if_true]

/-- The two ways in which `ShortenURL` answers with a link. -/
theorem ShortenURL_json {isURL : URLRule} {parse : URLParser} {rnd : RandSource} {fuel : Nat}
    {redisUp : Bool} {baseURL : String} {db db1 : Database} {RDB RDB1 : Option Redis}
    {req : CreateURLRequest} {status : Nat} {body : URLResponse}
    (h : ShortenURL isURL parse rnd fuel redisUp baseURL db RDB req
      = some (Reply.json status body, db1, RDB1)) :
    ShouldBindJSON isURL req = true ∧
    IsValidURL parse (NormalizeURL req.URL) = true ∧
    ((∃ existing, firstByOriginalURL db (NormalizeURL req.URL) = some existing ∧
        body.ShortCode = existing.ShortCode ∧ db1 = db ∧ RDB1 = RDB) ∨
     (firstByOriginalURL db (NormalizeURL req.URL) = none ∧
        firstByShortCode db body.ShortCode = none ∧ body.ShortCode ≠ "" ∧
        (∃ newURL, createURL db (NormalizeURL req.URL) body.ShortCode
            (GetTitleFromURL (NormalizeURL req.URL)) = some (db1, newURL)) ∧
        RDB1 = (CacheSet RDB redisUp body.ShortCode (NormalizeURL req.URL) day).1)) := by
  unfold ShortenURL at h
  split at h
  · cases h
  · rename_i hbind
    simp only [Bool.not_eq_true, Bool.not_eq_false', Bool.not_eq_false] at hbind
    refine ⟨hbind, ?_⟩
    simp only at h
    split at h
    · cases h
    · rename_i hvalid
      simp only [Bool.not_eq_true, Bool.not_eq_false', Bool.not_eq_false] at hvalid
      refine ⟨hvalid, ?_⟩
      split at h
      · rename_i existing hex
        simp only [Option.some.injEq, Prod.mk.injEq, Reply.json.injEq] at h
        obtain ⟨⟨_, hb⟩, hd, hr⟩ := h
        exact Or.inl ⟨existing, hex, by rw [← hb], hd.symm, hr.symm⟩
      · rename_i hnone
        split at h
        · cases h
        · simp only [Option.some.injEq, Prod.mk.injEq] at h
          rename_i reply hch
          obtain ⟨hrep, _, _⟩ := h
          subst hrep
          exfalso
          split at hch
          · split at hch
            · cases hch
            · split at hch <;> cases hch
          · cases hg : generateUnusedCode db fuel rnd <;> rw [hg] at hch <;> cases hch
        · rename_i shortCode hch
          have hcode : firstByShortCode db shortCode = none ∧ shortCode ≠ "" := by
            split at hch
            · rename_i hcustom
              split at hch
              · cases hch
              · split at hch
                · cases hch
                · rename_i hfree
                  cases hch
                  exact ⟨hfree, hcustom⟩
            · cases hg : generateUnusedCode db fuel rnd with
              | none => rw [hg] at hch; cases hch
              | some c =>
                rw [hg] at hch
                cases hch
                exact generateUnusedCode_some db fuel rnd _ hg
          split at h
          · cases h
          · rename_i db2 newURL hcreate
            simp only [Option.some.injEq, Prod.mk.injEq, Reply.json.injEq] at h
            obtain ⟨⟨_, hb⟩, hd, hr⟩ := h
            have hsc : body.ShortCode = shortCode := by
              rw [← hb]
              exact (createURL_some hcreate).1 ▸ rfl
            subst hd
            rw [hsc]
            exact Or.inr ⟨hnone, hcode.1, hcode.2, ⟨newURL, hcreate⟩, hr.symm⟩

/-- Whatever `ShortenURL` answers, the store afterwards is the store before or
the store before with one row inserted, under a code that no live link held and
that has the form of a custom code. -/
theorem ShortenURL_store {isURL : URLRule} {parse : URLParser} {rnd : RandSource} {fuel : Nat}
    {redisUp : Bool} {baseURL : String} {db db1 : Database} {RDB RDB1 : Option Redis}
    {req : CreateURLRequest} {reply : Reply}
    (h : ShortenURL isURL parse rnd fuel redisUp baseURL db RDB req = some (reply, db1, RDB1)) :
    db1 = db ∨ ∃ code newURL, firstByShortCode db code = none ∧
      IsValidCustomCode code = true ∧
      createURL db (NormalizeURL req.URL) code (GetTitleFromURL (NormalizeURL req.URL))
        = some (db1, newURL) := by
  unfold ShortenURL at h
  split at h
  · simp only [Option.some.injEq, Prod.mk.injEq] at h
    exact Or.inl h.2.1.symm
  · simp only at h
    split at h
    · simp only [Option.some.injEq, Prod.mk.injEq] at h
      exact Or.inl h.2.1.symm
    · split at h
      · simp only [Option.some.injEq, Prod.mk.injEq] at h
        exact Or.inl h.2.1.symm
      · split at h
        · cases h
        · simp only [Option.some.injEq, Prod.mk.injEq] at h
          exact Or.inl h.2.1.symm
        · rename_i shortCode hch
          have hfree : firstByShortCode db shortCode = none ∧
              IsValidCustomCode shortCode = true := by
            split at hch
            · split at hch
              · cases hch
              · rename_i hwf
                simp only [Bool.not_eq_true, Bool.not_eq_false', Bool.not_eq_false] at hwf
                split at hch
                · cases hch
                · rename_i hfree
                  cases hch
                  exact ⟨hfree, hwf⟩
            · cases hg : generateUnusedCode db fuel rnd with
              | none => rw [hg] at hch; cases hch
              | some c =>
                rw [hg] at hch
                cases hch
                exact ⟨(generateUnusedCode_some db fuel rnd _ hg).1,
                  generateUnusedCode_valid db fuel rnd _ hg⟩
          split at h
          · simp only [Option.some.injEq, Prod.mk.injEq] at h
            exact Or.inl h.2.1.symm
          · rename_i db2 newURL hcreate
            simp only [Option.some.injEq, Prod.mk.injEq] at h
            rw [← h.2.1]
            exact Or.inr ⟨shortCode, newURL, hfree.1, hfree.2, hcreate⟩

/-- Every short code that `ShortenURL` stores has the form of a custom code: 3
to 20 letters, digits or hyphens; in particular it is not empty. -/
theorem ShortenURL_codes_valid {isURL : URLRule} {parse : URLParser} {rnd : RandSource}
    {fuel : Nat} {redisUp : Bool} {baseURL : String} {db db1 : Database}
    {RDB RDB1 : Option Redis} {req : CreateURLRequest} {reply : Reply}
    (h : ShortenURL isURL parse rnd fuel redisUp baseURL db RDB req = some (reply, db1, RDB1))
    (hall : ∀ u ∈ db.urls, IsValidCustomCode u.ShortCode = true) :
    ∀ u ∈ db1.urls, IsValidCustomCode u.ShortCode = true := by
  rcases ShortenURL_store h with hsame | ⟨code, newURL, _, hwf, hcreate⟩
  · rw [hsame]; exact hall
  · obtain ⟨hnew, hurls, _⟩ := createURL_some hcreate
    intro u hu
    rw [hurls, List.mem_append, List.mem_singleton] at hu
    rcases hu with hu | hu
    · exact hall u hu
    · rw [hu, hnew]
      exact hwf

theorem Evicted_refl (c : Option Redis) : Evicted c c := by
  cases c with
  | none => exact True.intro
  | some r => exact fun _ _ h => h

/-- A `CacheGet` without error has read an entry of a present cache. -/
theorem CacheGet_ok {RDB : Option Redis} {up : Bool} {key : String}
    (herr : (CacheGet RDB up key).2 = none) :
    ∃ c e, RDB = some c ∧ c.data key = some e ∧ (CacheGet RDB up key).1 = e.value := by
  unfold CacheGet at herr ⊢
  cases RDB with
  | none => cases herr
  | some c =>
    simp only at herr ⊢
    split at herr
    · rename_i hup
      rw [if_pos hup]
      cases he : c.data key with
      | none => rw [he] at herr; cases herr
      | some e => exact ⟨c, e, rfl, he, by simp [he]⟩
    · cases herr

/-- Handler `RedirectURL` answers with `x` when the code is not empty, the store maps it
to `x`, and the cache holds no other non-empty value for it. -/
theorem RedirectURL_resolves (getUp setUp : Bool) (db : Database) (RDB : Option Redis)
    (code x : String) (r : Request) (hcode : code ≠ "")
    (hstore : ∃ u, firstByShortCode db code = some u ∧ u.OriginalURL = x)
    (hcache : ∀ c, RDB = some c → ∀ e, c.data code = some e → e.value ≠ "" → e.value = x) :
    (RedirectURL getUp setUp db RDB code r).reply = Reply.redirect 301 x := by
  obtain ⟨u, hu, hux⟩ := hstore
  unfold RedirectURL
  rw [if_neg hcode]
  simp only
  split
  · rename_i hhit
    simp only
    congr 1
    obtain ⟨herr, hne⟩ := hhit
    obtain ⟨c, e, hc, he, hval⟩ := CacheGet_ok herr
    rw [hval] at hne ⊢
    exact hcache c hc e he hne
  · rw [hu]
    simp only [hux]

/-- C1 (amended). When the store satisfies its invariants and the cache agrees
with the store, a successful `ShortenURL` followed by `RedirectURL` of the
returned code answers with `NormalizeURL` of the raw URL: whatever entries the
cache lost in between and whether or not Redis answers. -/
theorem create_then_resolve (isURL : URLRule) (parse : URLParser) (rnd : RandSource)
    (fuel : Nat) (redisUp : Bool) (baseURL : String) (db : Database) (RDB : Option Redis) (req : CreateURLRequest)
    (status : Nat) (body : URLResponse) (db1 : Database) (RDB1 : Option Redis)
    (hstore : StoreOK db) (hcache : CacheCoherent db RDB)
    (hcreate : ShortenURL isURL parse rnd fuel redisUp baseURL db RDB req
      = some (Reply.json status body, db1, RDB1))
    (RDB2 : Option Redis) (hev : Evicted RDB1 RDB2) (getUp setUp : Bool) (r : Request) :
    (RedirectURL getUp setUp db1 RDB2 body.ShortCode r).reply
      = Reply.redirect 301 (NormalizeURL req.URL) := by
  have key : body.ShortCode ≠ "" ∧
      (∃ u, firstByShortCode db1 body.ShortCode = some u ∧
        u.OriginalURL = NormalizeURL req.URL) ∧
      (∀ c, RDB1 = some c → ∀ e, c.data body.ShortCode = some e → e.value ≠ "" →
        e.value = NormalizeURL req.URL) := by
    obtain ⟨_, _, hA | hB⟩ := ShortenURL_json hcreate
    · obtain ⟨existing, hex, hsc, hd, hr⟩ := hA
      subst hd
      subst hr
      obtain ⟨hmem, hlive, hurl⟩ := firstByOriginalURL_some hex
      obtain ⟨v, hv⟩ := firstByShortCode_of_mem hmem hlive
      obtain ⟨hvmem, hvlive, hvcode⟩ := firstByShortCode_some hv
      have hveq : v = existing := hstore.2 v hvmem existing hmem hvlive hlive hvcode
      subst hveq
      rw [hsc]
      refine ⟨hstore.1 v hmem hlive, ⟨v, hv, hurl⟩, ?_⟩
      intro c hc e he hne
      obtain ⟨u, hu, hue⟩ := hcache c hc _ e he hne
      rw [hv] at hu
      cases hu
      rw [← hue, hurl]
    · obtain ⟨hnone, hfree, hne, ⟨newURL, hnew⟩, hr⟩ := hB
      refine ⟨hne, ⟨newURL, firstByShortCode_created hnew hfree, ?_⟩, ?_⟩
      · rw [(createURL_some hnew).1]
      · intro c hc e he hval
        rw [hr] at hc
        unfold CacheSet at hc
        cases hR : RDB with
        | none => rw [hR] at hc; cases hc
        | some c0 =>
          rw [hR] at hc hcache
          simp only at hc
          split at hc
          · simp only [Option.some.injEq] at hc
            subst hc
            simp only [if_true, Option.some.injEq] at he
            rw [← he]
          · simp only [Option.some.injEq] at hc
            subst hc
            obtain ⟨u, hu, _⟩ := hcache _ rfl _ e he hval
            rw [hfree] at hu
            cases hu
  refine RedirectURL_resolves getUp setUp db1 RDB2 _ _ r key.1 key.2.1 ?_
  intro c hc e he hval
  subst hc
  unfold Evicted at hev
  cases hR1 : RDB1 with
  | none => rw [hR1] at hev; exact absurd hev (by simp)
  | some c1 =>
    rw [hR1] at hev key
    exact key.2.2 c1 rfl e (hev _ e he) hval

theorem sample_coherent : CacheCoherent sampleDB sampleCache := by
  intro r hr code e he hne
  simp only [sampleCache, Option.some.injEq] at hr
  subst hr
  simp only at he
  split at he
  · rename_i hk
    subst hk
    cases he
    exact ⟨_, rfl, rfl⟩
  · cases he

theorem sample_storeOK : StoreOK sampleDB := by
  unfold StoreOK sampleDB
  decide

/-- C1, instance: on `sampleDB` the first generated code `000000` is taken, the
second, `111111`, is stored and cached, and its resolve answers with the
normalized URL. -/
theorem create_then_resolve_witness :
    ShortenURL sampleURLRule sampleParse sampleDraws 2 true "http://sho.rt" sampleDB sampleCache
        { URL := "http://example.com/page", CustomCode := "" }
      = some (Reply.json 201
          { ID := 2, OriginalURL := "http://example.com/page", ShortCode := "111111",
            ShortURL := "http://sho.rt/111111", Title := "", ClickCount := 0 },
          sampleDBAfter,
          sampleCacheAfter) ∧
    (RedirectURL true true
        sampleDBAfter
        sampleCacheAfter
        "111111" sampleRequest).reply
      = Reply.redirect 301 (NormalizeURL "http://example.com/page") :=
  ⟨rfl, create_then_resolve sampleURLRule sampleParse sampleDraws 2 true "http://sho.rt" sampleDB sampleCache
    { URL := "http://example.com/page", CustomCode := "" } 201
    { ID := 2, OriginalURL := "http://example.com/page", ShortCode := "111111",
      ShortURL := "http://sho.rt/111111", Title := "", ClickCount := 0 }
    sampleDBAfter sampleCacheAfter sample_storeOK sample_coherent rfl
    sampleCacheAfter (Evicted_refl sampleCacheAfter) true true sampleRequest⟩

/-- C1, counterexample: the store (one link, unique code) holds `abc123` for the
URL, the cache holds another value for `abc123`; create returns `abc123` and the
resolve of `abc123` answers with the cached value. -/
theorem stale_cache_wrong_redirect :
    ShortenURL sampleURLRule sampleParse sampleDraws 2 true "http://sho.rt" scenarioDB staleCache
        { URL := "http://example.com/page", CustomCode := "" }
      = some (Reply.json 200
          { ID := 1, OriginalURL := "http://example.com/page", ShortCode := "abc123",
            ShortURL := "http://sho.rt/abc123", Title := "", ClickCount := 0 },
          scenarioDB, staleCache) ∧
    (RedirectURL true true scenarioDB staleCache "abc123" sampleRequest).reply
      = Reply.redirect 301 "http://stale.example/" ∧
    (RedirectURL true true scenarioDB staleCache "abc123" sampleRequest).reply
      ≠ Reply.redirect 301 (NormalizeURL "http://example.com/page") :=
  ⟨rfl, by decide, by decide⟩

/-- C2 (amended). When `ShortenURL` has answered with a link for a raw URL, a
second call with the same raw URL, with any custom code, any random draws and
whether or not Redis answers, answers with the same short code and changes
neither the store nor the cache. -/
theorem create_idempotent (isURL : URLRule) (parse : URLParser) (rnd : RandSource)
    (fuel : Nat) (redisUp : Bool) (baseURL : String) (db : Database) (RDB : Option Redis)
    (req : CreateURLRequest) (status : Nat) (body : URLResponse) (db1 : Database)
    (RDB1 : Option Redis)
    (hcreate : ShortenURL isURL parse rnd fuel redisUp baseURL db RDB req
      = some (Reply.json status body, db1, RDB1))
    (customCode2 : String) (rnd2 : RandSource) (fuel2 : Nat) (redisUp2 : Bool)
    (baseURL2 : String) :
    ∃ body2, ShortenURL isURL parse rnd2 fuel2 redisUp2 baseURL2 db1 RDB1
        { URL := req.URL, CustomCode := customCode2 }
      = some (Reply.json 200 body2, db1, RDB1) ∧ body2.ShortCode = body.ShortCode := by
  obtain ⟨hbind, hvalid, hcases⟩ := ShortenURL_json hcreate
  have hbind2 : ShouldBindJSON isURL { URL := req.URL, CustomCode := customCode2 } = true :=
    hbind
  have hfound : ∃ u, firstByOriginalURL db1 (NormalizeURL req.URL) = some u ∧
      u.ShortCode = body.ShortCode := by
    rcases hcases with ⟨existing, hex, hsc, hd, _⟩ | ⟨hnone, _, _, ⟨newURL, hnew⟩, _⟩
    · subst hd
      exact ⟨existing, hex, hsc.symm⟩
    · exact ⟨newURL, firstByOriginalURL_created hnew hnone, by rw [(createURL_some hnew).1]⟩
  obtain ⟨u, hu, hcode⟩ := hfound
  refine ⟨{ ID := u.ID, OriginalURL := u.OriginalURL, ShortCode := u.ShortCode,
            ShortURL := baseURL2 ++ "/" ++ u.ShortCode, Title := u.Title,
            ClickCount := countClicks db1 u.ID }, ?_, hcode⟩
  unfold ShortenURL
  simp only [hbind2, hvalid, hu, Bool.not_true, Bool.false_eq_true, if_false]

/-- C2, instance: after the create of the C1 instance, a second create of the same
raw URL with custom code `my-link` answers with `111111` again. -/
theorem create_idempotent_witness :
    ∃ body2, ShortenURL sampleURLRule sampleParse (fun _ => 5) 0 false "https://sho.rt"
        sampleDBAfter
        sampleCacheAfter
        { URL := "http://example.com/page", CustomCode := "my-link" }
      = some (Reply.json 200 body2,
          sampleDBAfter,
          sampleCacheAfter) ∧
      body2.ShortCode = "111111" :=
  create_idempotent sampleURLRule sampleParse sampleDraws 2 true "http://sho.rt" sampleDB
    sampleCache { URL := "http://example.com/page", CustomCode := "" } 201
    { ID := 2, OriginalURL := "http://example.com/page", ShortCode := "111111",
      ShortURL := "http://sho.rt/111111", Title := "", ClickCount := 0 }
    sampleDBAfter sampleCacheAfter rfl
    "my-link" (fun _ => 5) 0 false "https://sho.rt"

/-- C2, counterexample: the first call need not return a short code.  On
`twoLinksDB` the valid URL `http://new.example/` with the custom code `my-link`,
which another link holds, is answered 409, and the second call for the same URL,
without a custom code, answers 201 with the code `000000` and adds a link.  On
`deletedRowDB` the valid URL `http://example.com/page` without a custom code is
answered 500, the generated code `000000` being held by a soft-deleted row, and
the second call, with other draws, answers 201 with `111111` and adds a link. -/
theorem first_create_returns_no_code :
    ShouldBindJSON sampleURLRule { URL := "http://new.example/", CustomCode := "my-link" }
      = true ∧
    IsValidURL newHostParse (NormalizeURL "http://new.example/") = true ∧
    ShortenURL sampleURLRule newHostParse sampleDraws 2 true "http://sho.rt" twoLinksDB none
        { URL := "http://new.example/", CustomCode := "my-link" }
      = some (Reply.error 409 "Custom code already exists", twoLinksDB, none) ∧
    ShortenURL sampleURLRule newHostParse sampleDraws 2 true "http://sho.rt" twoLinksDB none
        { URL := "http://new.example/", CustomCode := "" }
      = some (Reply.json 201
          { ID := 3, OriginalURL := "http://new.example/", ShortCode := "000000",
            ShortURL := "http://sho.rt/000000", Title := "", ClickCount := 0 },
          twoLinksDBAfter, none) ∧
    twoLinksDBAfter ≠ twoLinksDB ∧
    ShortenURL sampleURLRule newHostParse sampleDraws 2 true "http://sho.rt" deletedRowDB none
        { URL := "http://example.com/page", CustomCode := "" }
      = some (Reply.error 500 "Failed to create short URL", deletedRowDB, none) ∧
    (∃ db1, ShortenURL sampleURLRule newHostParse (fun _ => 1) 2 true "http://sho.rt"
        deletedRowDB none { URL := "http://example.com/page", CustomCode := "" }
      = some (Reply.json 201
          { ID := 2, OriginalURL := "http://example.com/page", ShortCode := "111111",
            ShortURL := "http://sho.rt/111111", Title := "", ClickCount := 0 },
          db1, none) ∧ db1 ≠ deletedRowDB) :=
  ⟨by decide, by decide, rfl, rfl, by decide, rfl, ⟨_, rfl, by decide⟩⟩

/-- C10 (amended). For a non-empty code that no live link of the store holds:
the goroutine `RedirectURL` may start adds no click to whatever database it
runs on, the cache is left as it was, and when the cache read gives an error or
an empty value the reply is 404 "Short URL not found" with no goroutine
started. -/
theorem redirect_unknown_code (getUp setUp : Bool) (db : Database) (RDB : Option Redis)
    (shortCode : String) (r : Request) (hcode : shortCode ≠ "")
    (habsent : firstByShortCode db shortCode = none) :
    (∀ task, (RedirectURL getUp setUp db RDB shortCode r).spawned = some task →
        ∀ dbNow, trackClick task.1 task.2 dbNow = dbNow) ∧
    (RedirectURL getUp setUp db RDB shortCode r).RDB = RDB ∧
    ((CacheGet RDB getUp shortCode).2 ≠ none ∨ (CacheGet RDB getUp shortCode).1 = "" →
      (RedirectURL getUp setUp db RDB shortCode r).reply = Reply.error 404 "Short URL not found" ∧
      (RedirectURL getUp setUp db RDB shortCode r).spawned = none) := by
  unfold RedirectURL
  rw [if_neg hcode, habsent]
  simp only
  refine ⟨?_, ?_, ?_⟩
  · intro task htask dbNow
    split at htask
    · simp only [Option.some.injEq] at htask
      subst htask
      rfl
    · cases htask
  · split <;> rfl
  · intro hmiss
    rw [if_neg (by
      rintro ⟨h1, h2⟩
      rcases hmiss with h | h
      · exact h h1
      · exact h2 h)]
    exact ⟨rfl, rfl⟩

/-- C10, instance: the code `gone42`, in neither `scenarioDB` nor `staleCache`. -/
theorem redirect_unknown_code_witness :
    (∀ task, (RedirectURL true true scenarioDB staleCache "gone42" sampleRequest).spawned
        = some task → ∀ dbNow, trackClick task.1 task.2 dbNow = dbNow) ∧
    (RedirectURL true true scenarioDB staleCache "gone42" sampleRequest).RDB = staleCache ∧
    ((CacheGet staleCache true "gone42").2 ≠ none ∨ (CacheGet staleCache true "gone42").1 = "" →
      (RedirectURL true true scenarioDB staleCache "gone42" sampleRequest).reply
        = Reply.error 404 "Short URL not found" ∧
      (RedirectURL true true scenarioDB staleCache "gone42" sampleRequest).spawned = none) :=
  redirect_unknown_code true true scenarioDB staleCache "gone42" sampleRequest (by decide)
    (by decide)

/-- C10, counterexample: the store has no link `abc123` but the cache has an
entry for it, and `RedirectURL` redirects to the cached value instead of
answering 404; an empty code is answered 400. -/
theorem cache_hit_without_link_redirects :
    firstByShortCode sampleDB "abc123" = none ∧
    (RedirectURL true true sampleDB staleCache "abc123" sampleRequest).reply
      = Reply.redirect 301 "http://stale.example/" ∧
    firstByShortCode sampleDB "" = none ∧
    (RedirectURL true true sampleDB staleCache "" sampleRequest).reply
      = Reply.error 400 "Short code is required" := by
  decide

/-! ## Custom code conflicts (C11) -/

theorem IsValidCustomCode_ne_empty {code : String} (h : IsValidCustomCode code = true) :
    code ≠ "" := by
  intro he
  subst he
  exact absurd h (by decide)

/-- C11 (amended). When a live link holds the custom code `c` (a code of the form
that `IsValidCustomCode` accepts, as is every code `ShortenURL` stores) and no
live link holds the normalized form of a valid URL, `ShortenURL` with that URL
and custom code `c` answers 409 "Custom code already exists" and leaves the
store and the cache as they were. -/
theorem custom_code_conflict (isURL : URLRule) (parse : URLParser) (rnd : RandSource)
    (fuel : Nat) (redisUp : Bool) (baseURL : String) (db : Database) (RDB : Option Redis)
    (url c : String) (link : URL)
    (hbind : ShouldBindJSON isURL { URL := url, CustomCode := c } = true)
    (hvalid : IsValidURL parse (NormalizeURL url) = true)
    (hnew : firstByOriginalURL db (NormalizeURL url) = none)
    (hheld : firstByShortCode db c = some link)
    (hwf : IsValidCustomCode c = true) :
    ShortenURL isURL parse rnd fuel redisUp baseURL db RDB { URL := url, CustomCode := c }
      = some (Reply.error 409 "Custom code already exists", db, RDB) := by
  unfold ShortenURL
  simp only [hbind, hvalid, hnew, hheld, hwf, Bool.not_true, Bool.false_eq_true, if_false,
    IsValidCustomCode_ne_empty hwf, ne_eq, not_false_eq_true, if_true]

/-- C11, instance: the spec's scenario, `my-link` requested again for a new URL. -/
theorem custom_code_conflict_witness :
    ShortenURL sampleURLRule newHostParse sampleDraws 2 true "http://sho.rt" twoLinksDB
        sampleCache { URL := "http://new.example/", CustomCode := "my-link" }
      = some (Reply.error 409 "Custom code already exists", twoLinksDB, sampleCache) :=
  custom_code_conflict sampleURLRule newHostParse sampleDraws 2
    true "http://sho.rt" twoLinksDB sampleCache "http://new.example/" "my-link"
    { ID := 1, OriginalURL := "http://other.example/", ShortCode := "my-link",
      Title := "", Deleted := false } (by decide) (by decide) (by decide) (by decide)
    (by decide)

/-- C11, counterexample: `my-link` is held by the link of `http://other.example/`,
and the valid URL `http://example.com/page`, a different URL, already has the
link `abc123`; `ShortenURL` with that URL and the custom code `my-link` answers
200 with `abc123` instead of the conflict.  And when the row holding `my-link`
is soft-deleted, `ShortenURL` with a new URL and `my-link` answers 500, the
insert being refused by the unique index. -/
theorem taken_code_without_conflict :
    firstByShortCode twoLinksDB "my-link"
      = some { ID := 1, OriginalURL := "http://other.example/", ShortCode := "my-link",
               Title := "", Deleted := false } ∧
    ShouldBindJSON sampleURLRule { URL := "http://example.com/page", CustomCode := "my-link" }
      = true ∧
    IsValidURL newHostParse (NormalizeURL "http://example.com/page") = true ∧
    NormalizeURL "http://example.com/page" ≠ "http://other.example/" ∧
    ShortenURL sampleURLRule newHostParse sampleDraws 2 true "http://sho.rt" twoLinksDB none
        { URL := "http://example.com/page", CustomCode := "my-link" }
      = some (Reply.json 200
          { ID := 2, OriginalURL := "http://example.com/page", ShortCode := "abc123",
            ShortURL := "http://sho.rt/abc123", Title := "", ClickCount := 0 },
          twoLinksDB, none) ∧
    ShortenURL sampleURLRule newHostParse sampleDraws 2 true "http://sho.rt" deletedLinkDB none
        { URL := "http://new.example/", CustomCode := "my-link" }
      = some (Reply.error 500 "Failed to create short URL", deletedLinkDB, none) :=
  ⟨by decide, by decide, by decide, by decide, rfl, rfl⟩

/-! ## The cleanup sweep (C12) -/

theorem cleanup_clients (rl : RateLimiter) (s : Int) (k : String) (bucket : ClientLimiter)
    (h : rl.clients k = some bucket) :
    (cleanup rl s).clients k = if s - bucket.lastSeen > hour then none else some bucket := by
  simp only [cleanup, h]
  by_cases hgt : s - bucket.lastSeen > hour
  · rw [if_pos ((durationSub_gt_hour s bucket.lastSeen).2 hgt), if_pos hgt]
  · rw [if_neg (fun hd => hgt ((durationSub_gt_hour s bucket.lastSeen).1 hd)), if_neg hgt]

/-- The timestamp of the bucket after the refill step at time `t` is at most `t`
and less than one refill period old. -/
theorem refilled_lastSeen (rl : RateLimiter) (client : ClientLimiter) (t : Int)
    (hrate : 0 < rl.rate) (hle : client.lastSeen ≤ t) :
    (refilled rl client t).lastSeen ≤ t ∧ t - (refilled rl client t).lastSeen < rl.rate := by
  unfold refilled
  split
  · exact ⟨le_rfl, by simpa using hrate⟩
  · rename_i hk
    refine ⟨hle, ?_⟩
    by_contra hge
    exact hk (by have := (tokensToAdd_pos rl client t hrate (by omega)).1; omega)

/-- The bucket an `Allow` call at time `t` leaves behind carries a timestamp that
is at most `t` and less than one refill period old. -/
theorem Allow_lastSeen (rl rl1 : RateLimiter) (k : String) (t : Int) (ok : Bool)
    (hrate : 0 < rl.rate) (hmono : ∀ c, rl.clients k = some c → c.lastSeen ≤ t)
    (hcall : Allow rl k t = some (rl1, ok)) :
    ∃ bucket, rl1.clients k = some bucket ∧ bucket.lastSeen ≤ t ∧
      t - bucket.lastSeen < rl.rate := by
  cases hc : rl.clients k with
  | none =>
    rw [Allow_new rl k t hc] at hcall
    simp only [Option.some.injEq, Prod.mk.injEq] at hcall
    rw [← hcall.1]
    exact ⟨_, put_clients_self _ _ _, le_rfl, by simpa using hrate⟩
  | some client =>
    have hstamp := refilled_lastSeen rl client t hrate (hmono client hc)
    rw [Allow_known rl k t client hc (ne_of_gt hrate)] at hcall
    split at hcall
    · simp only [Option.some.injEq, Prod.mk.injEq] at hcall
      rw [← hcall.1]
      exact ⟨_, put_clients_self _ _ _, hstamp.1, hstamp.2⟩
    · simp only [Option.some.injEq, Prod.mk.injEq] at hcall
      rw [← hcall.1]
      exact ⟨_, put_clients_self _ _ _, hstamp.1, hstamp.2⟩

/-- C12 (amended). For a positive refill period and an `Allow` call at time `t`
that does not precede the bucket's timestamp: after a cleanup pass at time `s`
the bucket of that client is absent when `t` is more than one hour before `s`,
and present with its token count and timestamp unchanged when its timestamp
`lastSeen` is at most one hour before `s`, which is the case whenever `t` is at
most one hour minus one refill period before `s`. -/
theorem sweep_retention (rl rl1 : RateLimiter) (clientIP : String) (t s : Int) (ok : Bool)
    (hrate : 0 < rl.rate)
    (hmono : ∀ c, rl.clients clientIP = some c → c.lastSeen ≤ t)
    (hcall : Allow rl clientIP t = some (rl1, ok)) :
    ∃ bucket, rl1.clients clientIP = some bucket ∧
      (s - t > hour → (cleanup rl1 s).clients clientIP = none) ∧
      (s - bucket.lastSeen ≤ hour → (cleanup rl1 s).clients clientIP = some bucket) ∧
      (s - t ≤ hour - rl.rate → (cleanup rl1 s).clients clientIP = some bucket) := by
  obtain ⟨bucket, hb, hle, hlt⟩ := Allow_lastSeen rl rl1 clientIP t ok hrate hmono hcall
  refine ⟨bucket, hb, ?_, ?_, ?_⟩
  · intro h
    rw [cleanup_clients rl1 s clientIP bucket hb, if_pos (by omega)]
  · intro h
    rw [cleanup_clients rl1 s clientIP bucket hb, if_neg (by omega)]
  · intro h
    rw [cleanup_clients rl1 s clientIP bucket hb, if_neg (by omega)]

theorem sampleLimiter_stamp (c : ClientLimiter)
    (hc : sampleLimiter.clients "203.0.113.7" = some c) : c.lastSeen ≤ 5000000000 := by
  have : c = { tokens := 9, lastSeen := 0 } := by
    simpa [sampleLimiter, RateLimiter.put, NewRateLimiter] using hc.symm
  subst this
  decide

/-- C12, instance: the second call of `laggingLimiter`, at 5 s, and a sweep at 2 h. -/
theorem sweep_retention_witness :
    ∃ bucket, laggingLimiter.clients "203.0.113.7" = some bucket ∧
      ((7200000000000 : Int) - 5000000000 > hour →
        (cleanup laggingLimiter 7200000000000).clients "203.0.113.7" = none) ∧
      (7200000000000 - bucket.lastSeen ≤ hour →
        (cleanup laggingLimiter 7200000000000).clients "203.0.113.7" = some bucket) ∧
      ((7200000000000 : Int) - 5000000000 ≤ hour - sampleLimiter.rate →
        (cleanup laggingLimiter 7200000000000).clients "203.0.113.7" = some bucket) :=
  sweep_retention sampleLimiter laggingLimiter "203.0.113.7" 5000000000 7200000000000 true
    (by decide) sampleLimiter_stamp rfl

/-- C12, counterexample: the most recent call of `laggingLimiter` was at 5 s, less
than one hour before the sweep at 1 h + 1 s, but its `lastSeen` is 0 and the
sweep deletes the bucket. -/
theorem sweep_deletes_recent_client :
    Allow (NewRateLimiter 6000000000 10) "203.0.113.7" 0 = some (sampleLimiter, true) ∧
    Allow sampleLimiter "203.0.113.7" 5000000000 = some (laggingLimiter, true) ∧
    (3601000000000 : Int) - 5000000000 ≤ hour ∧
    (cleanup laggingLimiter 3601000000000).clients "203.0.113.7" = none :=
  ⟨rfl, rfl, by decide, by decide⟩

/-! ## Resolving without a cache (C13) -/

theorem firstByShortCode_trackClick (db : Database) (urlID : Nat) (r : Request) (code : String) :
    firstByShortCode (trackClick urlID r db) code = firstByShortCode db code := by
  unfold trackClick firstByShortCode
  split <;> rfl

theorem RedirectURL_no_cache (getUp setUp : Bool) (db : Database) (shortCode : String)
    (r : Request) (link : URL) (hcode : shortCode ≠ "")
    (hlink : firstByShortCode db shortCode = some link) :
    RedirectURL getUp setUp db none shortCode r
      = { reply := Reply.redirect 301 link.OriginalURL, RDB := none,
          spawned := some (link.ID, r) } := by
  unfold RedirectURL
  rw [if_neg hcode]
  simp [CacheGet, CacheSet, hlink]

theorem RedirectRepeat_no_cache (shortCode : String) (link : URL) (hcode : shortCode ≠ "")
    (requests : List (Bool × Bool × Request)) :
    ∀ db : Database, firstByShortCode db shortCode = some link →
      (RedirectRepeat db none shortCode requests).1
          = List.replicate requests.length (Reply.redirect 301 link.OriginalURL) ∧
        (RedirectRepeat db none shortCode requests).2.2 = none := by
  induction requests with
  | nil => intro db _; exact ⟨rfl, rfl⟩
  | cons q later ih =>
    intro db hlink
    obtain ⟨getUp, setUp, r⟩ := q
    have hstep := RedirectURL_no_cache getUp setUp db shortCode r link hcode hlink
    have hnext := ih (trackClick link.ID r db)
      (by rw [firstByShortCode_trackClick]; exact hlink)
    simp only [RedirectRepeat, hstep, List.length_cons, List.replicate_succ]
    exact ⟨by rw [hnext.1], hnext.2⟩
/-- C13. With the cache handle absent, `CacheSet` and `CacheDelete` return no
error and no cache, `CacheGet` returns the miss `redis.Nil` for every key, and
for every store and every code that a live link holds, every one of any number
of successive `RedirectURL` calls redirects to that link's stored URL.  The code
is the parameter of the route `/:code`, which matches no empty path segment. -/
theorem absent_cache_absorbed (db : Database) (shortCode : String) (link : URL)
    (requests : List (Bool × Bool × Request)) (hcode : shortCode ≠ "")
    (hlink : firstByShortCode db shortCode = some link) :
    (∀ up key value expiration, CacheSet none up key value expiration = (none, none)) ∧
    (∀ up key, CacheDelete none up key = (none, none)) ∧
    (∀ up key, CacheGet none up key = ("", some CacheError.Nil)) ∧
    (RedirectRepeat db none shortCode requests).1
      = List.replicate requests.length (Reply.redirect 301 link.OriginalURL) ∧
    (RedirectRepeat db none shortCode requests).2.2 = none :=
  ⟨fun _ _ _ _ => rfl, fun _ _ => rfl, fun _ _ => rfl,
    RedirectRepeat_no_cache shortCode link hcode requests db hlink⟩

/-- C13, instance: three resolves of `abc123` on `scenarioDB` without a cache. -/
theorem absent_cache_absorbed_witness :
    (∀ up key value expiration, CacheSet none up key value expiration = (none, none)) ∧
    (∀ up key, CacheDelete none up key = (none, none)) ∧
    (∀ up key, CacheGet none up key = ("", some CacheError.Nil)) ∧
    (RedirectRepeat scenarioDB none "abc123"
        [(true, true, sampleRequest), (false, true, sampleRequest),
         (true, false, sampleRequest)]).1
      = List.replicate 3 (Reply.redirect 301 "http://example.com/page") ∧
    (RedirectRepeat scenarioDB none "abc123"
        [(true, true, sampleRequest), (false, true, sampleRequest),
         (true, false, sampleRequest)]).2.2 = none :=
  absent_cache_absorbed scenarioDB "abc123"
    { ID := 1, OriginalURL := "http://example.com/page", ShortCode := "abc123",
      Title := "", Deleted := false }
    [(true, true, sampleRequest), (false, true, sampleRequest), (true, false, sampleRequest)]
    (by decide) (by decide)

/-! ## Uniqueness of short codes (C14) -/

theorem UniqueShortCodes_created {db db1 : Database} {x code title : String} {newURL : URL}
    (huniq : UniqueShortCodes db) (hfree : firstByShortCode db code = none)
    (hcreate : createURL db x code title = some (db1, newURL)) : UniqueShortCodes db1 := by
  obtain ⟨hnew, hurls, _⟩ := createURL_some hcreate
  unfold UniqueShortCodes at huniq ⊢
  rw [hurls, List.filter_append, List.map_append, List.nodup_append]
  refine ⟨huniq, ?_, ?_⟩
  · subst hnew
    simp
  · subst hnew
    simp only [List.filter_cons, List.filter_nil, Bool.not_false, if_true, List.map_cons,
      List.map_nil, List.disjoint_singleton]
    intro hmem
    obtain ⟨u, hu, hcode⟩ := List.mem_map.1 hmem
    obtain ⟨humem, hlive⟩ := List.mem_filter.1 hu
    unfold firstByShortCode at hfree
    have := List.find?_eq_none.1 hfree u humem
    simp only [Bool.and_eq_true, beq_iff_eq, not_and] at this
    exact this hlive hcode


/-- C14. If no two live links of the store share a short code, then after any
`ShortenURL` call that answers, with a custom or a generated code and whatever
the answer, no two live links share a short code. -/
theorem short_codes_stay_unique (isURL : URLRule) (parse : URLParser) (rnd : RandSource)
    (fuel : Nat) (redisUp : Bool) (baseURL : String) (db : Database) (RDB : Option Redis)
    (req : CreateURLRequest) (reply : Reply) (db1 : Database) (RDB1 : Option Redis)
    (huniq : UniqueShortCodes db)
    (hcall : ShortenURL isURL parse rnd fuel redisUp baseURL db RDB req
      = some (reply, db1, RDB1)) :
    UniqueShortCodes db1 := by
  rcases ShortenURL_store hcall with hsame | ⟨code, newURL, hfree, _, hcreate⟩
  · rw [hsame]; exact huniq
  · exact UniqueShortCodes_created huniq hfree hcreate

/-- C14, instance: the create that extends `sampleDB` to `sampleDBAfter`. -/
theorem short_codes_stay_unique_witness :
    UniqueShortCodes sampleDB ∧ UniqueShortCodes sampleDBAfter :=
  ⟨by unfold UniqueShortCodes; decide,
    short_codes_stay_unique sampleURLRule sampleParse sampleDraws 2 true "http://sho.rt" sampleDB
      sampleCache { URL := "http://example.com/page", CustomCode := "" }
      (Reply.json 201
        { ID := 2, OriginalURL := "http://example.com/page", ShortCode := "111111",
          ShortURL := "http://sho.rt/111111", Title := "", ClickCount := 0 })
      sampleDBAfter sampleCacheAfter (by unfold UniqueShortCodes; decide) rfl⟩

/-! ## The refill step (C15) -/

theorem fdiv_nonneg_neg (m n : Nat) :
    Int.fdiv (Int.ofNat m) (Int.negSucc n) ≤ 0 ∧
      (Int.fdiv (Int.ofNat m) (Int.negSucc n) = 0 → m = 0) := by
  cases m with
  | zero => exact ⟨le_of_eq rfl, fun _ => rfl⟩
  | succ m =>
    have h : Int.fdiv (Int.ofNat (m + 1)) (Int.negSucc n) = Int.negSucc (m / (n + 1)) := rfl
    rw [h]
    have := Int.negSucc_lt_zero (m / (n + 1))
    exact ⟨by omega, fun h0 => by omega⟩

theorem fdiv_neg_nonneg (m n : Nat) :
    Int.fdiv (Int.negSucc m) (Int.ofNat n) ≤ 0 ∧
      (Int.fdiv (Int.negSucc m) (Int.ofNat n) = 0 → n = 0) := by
  cases n with
  | zero => exact ⟨le_of_eq rfl, fun _ => rfl⟩
  | succ n =>
    have h : Int.fdiv (Int.negSucc m) (Int.ofNat (n + 1)) = Int.negSucc (m / (n + 1)) := rfl
    rw [h]
    have := Int.negSucc_lt_zero (m / (n + 1))
    exact ⟨by omega, fun h0 => by omega⟩

theorem tdiv_eq_fdiv_of_one_le (a b : Int) (h : 1 ≤ Int.fdiv a b) : Int.tdiv a b = Int.fdiv a b := by
  cases a with
  | ofNat m =>
    cases b with
    | ofNat n => exact (Int.fdiv_eq_tdiv (Int.ofNat_nonneg m) (Int.ofNat_nonneg n)).symm
    | negSucc n =>
      have := (fdiv_nonneg_neg m n).1
      omega
  | negSucc m =>
    cases b with
    | ofNat n =>
      have := (fdiv_neg_nonneg m n).1
      omega
    | negSucc n => rfl

theorem tdiv_eq_zero_of_fdiv_eq_zero (a b : Int) (h : Int.fdiv a b = 0) : Int.tdiv a b = 0 := by
  cases a with
  | ofNat m =>
    cases b with
    | ofNat n =>
      have e : Int.fdiv (Int.ofNat m) (Int.ofNat n) = Int.tdiv (Int.ofNat m) (Int.ofNat n) :=
        Int.fdiv_eq_tdiv (Int.ofNat_nonneg m) (Int.ofNat_nonneg n)
      exact e.symm.trans h
    | negSucc n =>
      have hm := (fdiv_nonneg_neg m n).2 h
      subst hm
      simp [Int.tdiv]
  | negSucc m =>
    cases b with
    | ofNat n =>
      have hn := (fdiv_neg_nonneg m n).2 h
      subst hn
      simp [Int.tdiv]
    | negSucc n => exact h

theorem refilled_isInt64 (rl : RateLimiter) (client : ClientLimiter) (now : Int)
    (h : IsInt64 client.tokens) : IsInt64 (refilled rl client now).tokens := by
  unfold refilled
  split
  · simp only
    split
    · exact rl.burst_int64
    · exact wrapInt64_isInt64 _
  · exact h

/-- C15 (amended). For a known bucket holding a 64-bit count and a non-zero
refill period, with `elapsed` the Go duration `now.Sub(lastSeen)` (the
difference `now - lastSeen`, clamped to the 64-bit range) and
`k = floor (elapsed / rate)`, and provided that, when `k ≥ 1`, neither `k` nor
`tokens + k` exceeds `MaxInt64`: the bucket before consumption has
`min burst (tokens + k)` tokens and timestamp `now` when `k ≥ 1`, and is the
stored bucket when `k = 0`; when that count is positive `Allow` returns `true`
and the map then holds one token less for the client, otherwise `Allow` returns
`false` and the map holds that count; the buckets of the other clients, the
rate and the burst are as before. -/
theorem Allow_refill_step (rl : RateLimiter) (clientIP : String) (now : Int)
    (client : ClientLimiter) (hclient : rl.clients clientIP = some client)
    (hrate : rl.rate ≠ 0) (htokens : IsInt64 client.tokens)
    (hfits : 1 ≤ Int.fdiv (durationSub now client.lastSeen) rl.rate →
      Int.fdiv (durationSub now client.lastSeen) rl.rate ≤ 9223372036854775807 ∧
      client.tokens + Int.fdiv (durationSub now client.lastSeen) rl.rate
        ≤ 9223372036854775807) :
    ∃ (before : ClientLimiter) (rl1 : RateLimiter) (ok : Bool),
      Allow rl clientIP now = some (rl1, ok) ∧
      (1 ≤ Int.fdiv (durationSub now client.lastSeen) rl.rate →
        before = { tokens := min rl.burst
                     (client.tokens + Int.fdiv (durationSub now client.lastSeen) rl.rate),
                   lastSeen := now }) ∧
      (Int.fdiv (durationSub now client.lastSeen) rl.rate = 0 → before = client) ∧
      (0 < before.tokens →
        ok = true ∧
        rl1.clients clientIP
          = some { tokens := before.tokens - 1, lastSeen := before.lastSeen }) ∧
      (¬ 0 < before.tokens → ok = false ∧ rl1.clients clientIP = some before) ∧
      (∀ other, other ≠ clientIP → rl1.clients other = rl.clients other) ∧
      rl1.rate = rl.rate ∧ rl1.burst = rl.burst := by
  have hstep := Allow_known rl clientIP now client hclient hrate
  have hrange := refilled_isInt64 rl client now htokens
  have hbefore : (1 ≤ Int.fdiv (durationSub now client.lastSeen) rl.rate →
        refilled rl client now
          = { tokens := min rl.burst
                (client.tokens + Int.fdiv (durationSub now client.lastSeen) rl.rate),
              lastSeen := now }) ∧
      (Int.fdiv (durationSub now client.lastSeen) rl.rate = 0 →
        refilled rl client now = client) := by
    unfold IsInt64 at htokens
    constructor
    · intro hk
      have hle := hfits hk
      have hadd : tokensToAdd rl client now
          = Int.fdiv (durationSub now client.lastSeen) rl.rate := by
        unfold tokensToAdd
        rw [tdiv_eq_fdiv_of_one_le _ _ hk, wrapInt64_eq _ (by unfold IsInt64; omega)]
      unfold refilled
      rw [hadd, if_pos (by omega), wrapInt64_eq _ (by unfold IsInt64; omega)]
      congr 1
      rw [min_def]
      split <;> split <;> omega
    · intro hk
      have hadd : tokensToAdd rl client now = 0 := by
        unfold tokensToAdd
        rw [tdiv_eq_zero_of_fdiv_eq_zero _ _ hk]
        rfl
      unfold refilled
      rw [hadd, if_neg (by decide)]
  unfold IsInt64 at hrange
  by_cases hpos : (refilled rl client now).tokens > 0
  · rw [if_pos hpos, wrapInt64_eq _ (by unfold IsInt64; omega)] at hstep
    exact ⟨refilled rl client now, _, true, hstep, hbefore.1, hbefore.2,
      fun _ => ⟨rfl, put_clients_self _ _ _⟩, fun hn => absurd hpos hn,
      fun other ho => put_clients_other _ _ _ _ ho, rfl, rfl⟩
  · rw [if_neg hpos] at hstep
    exact ⟨refilled rl client now, _, false, hstep, hbefore.1, hbefore.2,
      fun hp => absurd hp hpos, fun _ => ⟨rfl, put_clients_self _ _ _⟩,
      fun other ho => put_clients_other _ _ _ _ ho, rfl, rfl⟩

/-- C15, instance: `sampleLimiter` (9 tokens, timestamp 0, period 6 s, burst 10)
called at 13 s, where `k = 2`. -/
theorem Allow_refill_step_witness :
    ∃ (before : ClientLimiter) (rl1 : RateLimiter) (ok : Bool),
      Allow sampleLimiter "203.0.113.7" 13000000000 = some (rl1, ok) ∧
      (1 ≤ Int.fdiv (durationSub 13000000000 (ClientLimiter.mk 9 0).lastSeen)
            sampleLimiter.rate →
        before = { tokens := min sampleLimiter.burst
                     ((ClientLimiter.mk 9 0).tokens
                       + Int.fdiv (durationSub 13000000000 (ClientLimiter.mk 9 0).lastSeen)
                           sampleLimiter.rate),
                   lastSeen := 13000000000 }) ∧
      (Int.fdiv (durationSub 13000000000 (ClientLimiter.mk 9 0).lastSeen) sampleLimiter.rate = 0 →
        before = ClientLimiter.mk 9 0) ∧
      (0 < before.tokens →
        ok = true ∧
        rl1.clients "203.0.113.7"
          = some { tokens := before.tokens - 1, lastSeen := before.lastSeen }) ∧
      (¬ 0 < before.tokens → ok = false ∧ rl1.clients "203.0.113.7" = some before) ∧
      (∀ other, other ≠ "203.0.113.7" → rl1.clients other = sampleLimiter.clients other) ∧
      rl1.rate = sampleLimiter.rate ∧ rl1.burst = sampleLimiter.burst :=
  Allow_refill_step sampleLimiter "203.0.113.7" 13000000000 (ClientLimiter.mk 9 0) (by decide)
    (by decide) (by unfold IsInt64; decide) (by decide)

/-- C15, counterexample: `fullRangeLimiter` has burst `MaxInt64`, period 1 ns and a
bucket of `MaxInt64 - 1` tokens stamped 0; at 2 ns `k = 2`, and the count before
consumption should be `min burst (tokens + 2) = MaxInt64`, a positive count, so
that the call is admitted; but the addition wraps, `Allow` returns `false` and
leaves `MinInt64` tokens. -/
theorem refill_addition_wraps :
    fullRangeLimiter.clients "203.0.113.7"
      = some { tokens := 9223372036854775806, lastSeen := 0 } ∧
    Int.fdiv (durationSub 2 0) fullRangeLimiter.rate = 2 ∧
    min fullRangeLimiter.burst (9223372036854775806 + 2) = 9223372036854775807 ∧
    Allow fullRangeLimiter "203.0.113.7" 2 = some (overflowedLimiter, false) ∧
    overflowedLimiter.clients "203.0.113.7"
      = some { tokens := -9223372036854775808, lastSeen := 2 } :=
  ⟨by decide, by decide, by decide, rfl, by decide⟩

/-! ## The rate bound (C16) -/

theorem ediv_add_ediv_le (a b r : Int) (hr : 0 < r) : a / r + b / r ≤ (a + b) / r := by
  have h1 := Int.ediv_mul_le a (ne_of_gt hr)
  have h2 := Int.ediv_mul_le b (ne_of_gt hr)
  exact (Int.le_ediv_iff_mul_le hr).2 (by rw [add_mul]; omega)

theorem wrapInt64_le (x : Int) (h : -9223372036854775808 ≤ x) : wrapInt64 x ≤ x := by
  unfold wrapInt64
  omega

/-- The refill step at time `t` keeps the count a 64-bit value and the timestamp
at most `t`, and does not raise `max tokens 0 + floor ((E - lastSeen) / rate)`. -/
theorem refilled_budget (rl : RateLimiter) (c : ClientLimiter) (t E : Int)
    (hr : 0 < rl.rate) (h0 : IsInt64 c.tokens) (hls : c.lastSeen ≤ t) :
    IsInt64 (refilled rl c t).tokens ∧ (refilled rl c t).lastSeen ≤ t ∧
      max (refilled rl c t).tokens 0 + (E - (refilled rl c t).lastSeen) / rl.rate
        ≤ max c.tokens 0 + (E - c.lastSeen) / rl.rate := by
  refine ⟨refilled_isInt64 rl c t h0, (refilled_lastSeen rl c t hr hls).1, ?_⟩
  unfold IsInt64 at h0
  unfold refilled
  split
  · rename_i hpos
    have hge : rl.rate ≤ t - c.lastSeen := by
      by_contra hlt
      have := tokensToAdd_nonpos rl c t hr (by omega)
      omega
    have hadd := tokensToAdd_pos rl c t hr hge
    have hw := wrapInt64_le (c.tokens + tokensToAdd rl c t) (by omega)
    have hsplit := ediv_add_ediv_le (t - c.lastSeen) (E - t) rl.rate hr
    have hsum : t - c.lastSeen + (E - t) = E - c.lastSeen := by ring
    rw [hsum] at hsplit
    simp only
    split <;> omega
  · exact le_rfl

/-- Along any run of calls and cleanup passes at non-decreasing times up to
`E`, the admitted calls stay within the admission budget of the first state;
cleanup passes are allowed when a bucket that a pass deletes, one last refilled
more than an hour ago, would by then be full again. -/
theorem runEvents_budget (k : String) (E : Int) (events : List LimiterEvent) :
    ∀ (rl : RateLimiter) (lo : Int), 0 < rl.rate → 1 ≤ rl.burst →
      (rl.burst * rl.rate ≤ hour + 1 ∨ ∀ e ∈ events, e.isSweep = false) →
      lo ≤ E → List.Pairwise (fun a b => LimiterEvent.time a ≤ LimiterEvent.time b) events →
      (∀ e ∈ events, lo ≤ e.time ∧ e.time ≤ E) →
      (∀ c, rl.clients k = some c → IsInt64 c.tokens ∧ c.lastSeen ≤ lo) →
      ∃ rl1 results, runEvents rl k events = some (rl1, results) ∧
        (results.count true : Int) ≤ admissionBudget rl k lo E := by
  induction events with
  | nil =>
    intro rl lo hr hb _ hlo _ _ hstate
    refine ⟨rl, [], rfl, ?_⟩
    simp only [List.count_nil, Nat.cast_zero]
    unfold admissionBudget
    cases hc : rl.clients k with
    | none =>
      have := Int.ediv_nonneg (show 0 ≤ E - lo by omega) (le_of_lt hr)
      simp only
      omega
    | some c =>
      have hls := (hstate c hc).2
      have := Int.ediv_nonneg (show 0 ≤ E - c.lastSeen by omega) (le_of_lt hr)
      simp only
      omega
  | cons e later ih =>
    intro rl lo hr hb hsweep hlo hsorted hrange hstate
    obtain ⟨hlt, htE⟩ := hrange e (List.mem_cons_self _ _)
    have hlater : ∀ x ∈ later, e.time ≤ x.time ∧ x.time ≤ E := fun x hx =>
      ⟨(List.pairwise_cons.1 hsorted).1 x hx, (hrange x (List.mem_cons_of_mem _ hx)).2⟩
    have hsorted' := (List.pairwise_cons.1 hsorted).2
    have hsweep' : ∀ rl' : RateLimiter, rl'.burst = rl.burst → rl'.rate = rl.rate →
        (rl'.burst * rl'.rate ≤ hour + 1 ∨ ∀ x ∈ later, x.isSweep = false) := by
      intro rl' h1 h2
      rcases hsweep with h | h
      · exact Or.inl (by rw [h1, h2]; exact h)
      · exact Or.inr (fun x hx => h x (List.mem_cons_of_mem _ hx))
    have hburst := rl.burst_int64
    unfold IsInt64 at hburst
    cases e with
    | call t =>
      simp only [LimiterEvent.time] at hlt htE hlater
      cases hc : rl.clients k with
      | none =>
        have hstep := Allow_new rl k t hc
        rw [wrapInt64_eq _ (by unfold IsInt64; omega)] at hstep
        obtain ⟨rl1, results, hrun, hcount⟩ := ih
          (rl.put k { tokens := rl.burst - 1, lastSeen := t }) t hr hb
          (hsweep' _ rfl rfl) htE hsorted' hlater
          (fun c hcc => by
            rw [put_clients_self] at hcc
            cases hcc
            exact ⟨by unfold IsInt64; simp only; omega, le_rfl⟩)
        refine ⟨rl1, true :: results, by simp only [runEvents, hstep, hrun], ?_⟩
        have hmono := Int.ediv_le_ediv hr (show E - t ≤ E - lo by omega)
        simp only [List.count_cons_self, Nat.cast_add, Nat.cast_one]
        unfold admissionBudget at hcount ⊢
        rw [put_clients_self] at hcount
        rw [hc]
        simp only [RateLimiter.put] at hcount ⊢
        omega
      | some c =>
        obtain ⟨hctok, hcls⟩ := hstate c hc
        obtain ⟨hrtok, hrls, hbudget⟩ := refilled_budget rl c t E hr hctok (by omega)
        have hstep := Allow_known rl k t c hc (ne_of_gt hr)
        unfold IsInt64 at hrtok
        by_cases hpos : (refilled rl c t).tokens > 0
        · rw [if_pos hpos, wrapInt64_eq _ (by unfold IsInt64; omega)] at hstep
          obtain ⟨rl1, results, hrun, hcount⟩ := ih
            (rl.put k { tokens := (refilled rl c t).tokens - 1,
                        lastSeen := (refilled rl c t).lastSeen }) t hr hb
            (hsweep' _ rfl rfl) htE hsorted' hlater
            (fun c' hcc => by
              rw [put_clients_self] at hcc
              cases hcc
              exact ⟨by unfold IsInt64; simp only; omega, hrls⟩)
          refine ⟨rl1, true :: results, by simp only [runEvents, hstep, hrun], ?_⟩
          simp only [List.count_cons_self, Nat.cast_add, Nat.cast_one]
          unfold admissionBudget at hcount ⊢
          rw [put_clients_self] at hcount
          rw [hc]
          simp only [RateLimiter.put] at hcount ⊢
          omega
        · rw [if_neg hpos] at hstep
          obtain ⟨rl1, results, hrun, hcount⟩ := ih (rl.put k (refilled rl c t)) t hr hb
            (hsweep' _ rfl rfl) htE hsorted' hlater
            (fun c' hcc => by
              rw [put_clients_self] at hcc
              cases hcc
              exact ⟨by unfold IsInt64; omega, hrls⟩)
          refine ⟨rl1, false :: results, by simp only [runEvents, hstep, hrun], ?_⟩
          rw [List.count_cons_of_ne (by decide)]
          unfold admissionBudget at hcount ⊢
          rw [put_clients_self] at hcount
          rw [hc]
          simp only [RateLimiter.put] at hcount ⊢
          omega
    | sweep s =>
      simp only [LimiterEvent.time] at hlt htE hlater
      cases hc : rl.clients k with
      | none =>
        have hgone : (cleanup rl s).clients k = none := by simp only [cleanup, hc]
        obtain ⟨rl1, results, hrun, hcount⟩ := ih (cleanup rl s) s hr hb (hsweep' _ rfl rfl)
          htE hsorted' hlater (fun c hcc => by rw [hgone] at hcc; cases hcc)
        refine ⟨rl1, results, by simp only [runEvents, hrun], ?_⟩
        have hmono := Int.ediv_le_ediv hr (show E - s ≤ E - lo by omega)
        unfold admissionBudget at hcount ⊢
        rw [hgone] at hcount
        rw [hc]
        simp only [cleanup] at hcount ⊢
        omega
      | some c =>
        obtain ⟨hctok, hcls⟩ := hstate c hc
        have hcl := cleanup_clients rl s k c hc
        by_cases hold : s - c.lastSeen > hour
        · rw [if_pos hold] at hcl
          have hfast : rl.burst * rl.rate ≤ hour + 1 := by
            rcases hsweep with h | h
            · exact h
            · have hno := h (LimiterEvent.sweep s) (List.mem_cons_self _ _)
              simp [LimiterEvent.isSweep] at hno
          obtain ⟨rl1, results, hrun, hcount⟩ := ih (cleanup rl s) s hr hb (hsweep' _ rfl rfl)
            htE hsorted' hlater (fun c' hcc => by rw [hcl] at hcc; cases hcc)
          refine ⟨rl1, results, by simp only [runEvents, hrun], ?_⟩
          have hfull : rl.burst ≤ (s - c.lastSeen) / rl.rate :=
            (Int.le_ediv_iff_mul_le hr).2 (by omega)
          have hsplit := ediv_add_ediv_le (s - c.lastSeen) (E - s) rl.rate hr
          have hsum : s - c.lastSeen + (E - s) = E - c.lastSeen := by ring
          rw [hsum] at hsplit
          unfold admissionBudget at hcount ⊢
          rw [hcl] at hcount
          rw [hc]
          simp only [cleanup] at hcount ⊢
          omega
        · rw [if_neg hold] at hcl
          obtain ⟨rl1, results, hrun, hcount⟩ := ih (cleanup rl s) s hr hb (hsweep' _ rfl rfl)
            htE hsorted' hlater (fun c' hcc => by
              rw [hcl] at hcc
              cases hcc
              exact ⟨hctok, by omega⟩)
          refine ⟨rl1, results, by simp only [runEvents, hrun], ?_⟩
          unfold admissionBudget at hcount ⊢
          rw [hcl] at hcount
          rw [hc]
          simp only [cleanup] at hcount ⊢
          omega

/-- C16 (amended). For burst `B ≥ 1` and refill period `r > 0`, a key first seen
at `t0`, and `Allow` calls for that key at non-decreasing times, the first at
`t0` and all within `[t0, t0 + T]`, with cleanup passes at any times in between
when `B * r ≤ 1 h + 1 ns` and with none otherwise: every call returns, and at
most `B + floor (T / r)` of them are admitted. -/
theorem admitted_calls_bound (rl : RateLimiter) (clientIP : String) (t0 T : Int)
    (later : List LimiterEvent) (hB : 1 ≤ rl.burst) (hrate : 0 < rl.rate)
    (hsweep : rl.burst * rl.rate ≤ hour + 1 ∨ ∀ e ∈ later, e.isSweep = false)
    (hnew : rl.clients clientIP = none)
    (hsorted : List.Pairwise (fun a b => LimiterEvent.time a ≤ LimiterEvent.time b)
      (LimiterEvent.call t0 :: later))
    (hwithin : ∀ e ∈ LimiterEvent.call t0 :: later, e.time ≤ t0 + T) :
    ∃ rl1 results, runEvents rl clientIP (LimiterEvent.call t0 :: later) = some (rl1, results) ∧
      (results.count true : Int) ≤ rl.burst + Int.fdiv T rl.rate := by
  have hT : t0 ≤ t0 + T := hwithin _ (List.mem_cons_self _ _)
  obtain ⟨rl1, results, hrun, hcount⟩ := runEvents_budget clientIP (t0 + T)
    (LimiterEvent.call t0 :: later) rl t0 hrate hB
    (by
      rcases hsweep with h | h
      · exact Or.inl h
      · refine Or.inr (fun e he => ?_)
        rcases List.mem_cons.1 he with rfl | he
        · rfl
        · exact h e he)
    hT hsorted
    (fun e he => by
      refine ⟨?_, hwithin e he⟩
      rcases List.mem_cons.1 he with rfl | he'
      · exact le_rfl
      · exact (List.pairwise_cons.1 hsorted).1 e he')
    (fun c hc => by rw [hnew] at hc; cases hc)
  refine ⟨rl1, results, hrun, ?_⟩
  unfold admissionBudget at hcount
  rw [hnew] at hcount
  simp only [add_sub_cancel_left] at hcount
  rw [Int.fdiv_eq_ediv T (le_of_lt hrate)]
  exact hcount

/-- C16, instance: burst 2, period 6 s, calls at 0, 0, 0, 6 s, 6 s and 13 s with a
cleanup pass at 1 s, within `T = 13 s`: at most `2 + 2` are admitted. -/
theorem admitted_calls_bound_witness :
    ∃ rl1 results,
      runEvents (NewRateLimiter 6000000000 2) "203.0.113.7"
          (LimiterEvent.call 0 ::
            [LimiterEvent.call 0, LimiterEvent.call 0, LimiterEvent.sweep 1000000000,
             LimiterEvent.call 6000000000, LimiterEvent.call 6000000000,
             LimiterEvent.call 13000000000]) = some (rl1, results) ∧
      (results.count true : Int)
        ≤ (NewRateLimiter 6000000000 2).burst
            + Int.fdiv 13000000000 (NewRateLimiter 6000000000 2).rate :=
  admitted_calls_bound (NewRateLimiter 6000000000 2) "203.0.113.7" 0 13000000000
    [LimiterEvent.call 0, LimiterEvent.call 0, LimiterEvent.sweep 1000000000,
     LimiterEvent.call 6000000000, LimiterEvent.call 6000000000,
     LimiterEvent.call 13000000000]
    (by decide) (by decide) (Or.inl (by decide)) rfl (by decide) (by decide)

/-- C16, counterexample: with burst 2 and period 2 h, calls at 0 and 0, the cleanup
pass at 3660 s and calls at 3720 s and 3720 s, all four calls are admitted, more
than `2 + floor (3720 s / 2 h) = 2`. -/
theorem sweep_breaks_rate_bound :
    resultsOf (runEvents (NewRateLimiter 7200000000000 2) "203.0.113.7"
        [LimiterEvent.call 0, LimiterEvent.call 0, LimiterEvent.sweep 3660000000000,
         LimiterEvent.call 3720000000000, LimiterEvent.call 3720000000000])
      = some [true, true, true, true] ∧
    (NewRateLimiter 7200000000000 2).burst
        + Int.fdiv 3720000000000 (NewRateLimiter 7200000000000 2).rate = 2 ∧
    ¬ (([true, true, true, true].count true : Int)
        ≤ (NewRateLimiter 7200000000000 2).burst
            + Int.fdiv 3720000000000 (NewRateLimiter 7200000000000 2).rate) := by
  decide

end Shorter
